import Mathlib

/-!
Verification of the edit4config engine (src/edit4config/edit4config.py).

Text is modelled as `List Char`. Python's `re.match` (anchored-at-start
regex matching) is abstracted as a boolean oracle `rm : Line → Line → Bool`
(pattern, string); `re.sub` as an oracle `rsub`; capture groups as an
oracle returning `Option (List Line)`. All control flow, string handling
and list manipulation is translated from the source.
-/

namespace Edit4Config

/-- A line of text, as a list of characters. -/
abbrev Line := List Char

/-- A parsed record: separator-joined ancestor path and the original line. -/
abbrev PathRec := Line × Line

/-- Width-annotated record: the path keeps each token together with the
path_dict key (indentation width) it was registered under. -/
abbrev RecW := List (Nat × Line) × Line

/-- Python whitespace characters, as stripped by str.strip / str.lstrip / str.rstrip. -/
def isPySpace (c : Char) : Bool :=
  c = ' ' || c = '\t' || c = '\n' || c = '\r' || c = '\x0b' || c = '\x0c'

/-- Python str.lstrip(). -/
def lstrip (l : Line) : Line := l.dropWhile isPySpace

/-- Python str.rstrip(). -/
def rstrip (l : Line) : Line := (l.reverse.dropWhile isPySpace).reverse

/-- Python str.strip(). -/
def strip (l : Line) : Line := rstrip (lstrip l)

/-- Leading-whitespace width of a line: len(line) - len(line.lstrip()). -/
def indentWidth (l : Line) : Nat := (l.takeWhile isPySpace).length

/-- Python str.splitlines() for newline-separated text: a trailing newline
does not produce a final empty line, and '' has no lines. -/
def splitlines : Line → List Line
  | [] => []
  | c :: rest =>
    if c = '\n' then [] :: splitlines rest
    else
      match splitlines rest with
      | [] => [[c]]
      | l :: ls => (c :: l) :: ls

/-- Python sep.join(strings) for a single-character separator. -/
def joinSep (sep : Char) : List Line → Line
  | [] => []
  | [l] => l
  | l :: ls => l ++ sep :: joinSep sep ls

/-- Python str.split(sep) for a single-character separator
(always returns at least one piece). -/
def splitOnChar (sep : Char) : Line → List Line
  | [] => [[]]
  | c :: rest =>
    if c = sep then [] :: splitOnChar sep rest
    else
      match splitOnChar sep rest with
      | [] => [[c]]
      | l :: ls => (c :: l) :: ls

/-- Python line.startswith(tuple_of_prefixes): some listed prefix starts the line
(false for the empty tuple). -/
def startsWithAny (comm : List Line) (l : Line) : Bool :=
  comm.any (fun p => p.isPrefixOf l)

/-- The path_dict of _config_with_parent: an int-keyed dict, kept here as an
association list sorted strictly by key so that Python's sorted(path_dict)
is the list order itself. -/
abbrev PD := List (Nat × Line)

/-- path_dict[k] = v (dict update keeps at most one entry per key; the
sorted-by-key representation is maintained). -/
def pdInsert : PD → Nat → Line → PD
  | [], k, v => [(k, v)]
  | (k', v') :: rest, k, v =>
    if k < k' then (k, v) :: (k', v') :: rest
    else if k = k' then (k, v) :: rest
    else (k', v') :: pdInsert rest k v

/-- del path_dict[k]. -/
def pdDelete (pd : PD) (k : Nat) : PD := pd.filter (fun e => e.1 != k)

/-- Entries registered strictly shallower than the given width, in ascending
width order: [path_dict[k] for k in sorted(path_dict) if k < space]. -/
def pdBelow (pd : PD) (space : Nat) : List (Nat × Line) :=
  pd.filter (fun e => decide (e.1 < space))

/-- Forward-lookahead pruning test of _config_with_parent: the first
following non-comment line exists and has strictly smaller width. -/
def pruneAfter (comm : List Line) (rest : List Line) (space : Nat) : Bool :=
  match (rest.dropWhile (startsWithAny comm)).head? with
  | some l => decide (indentWidth l < space)
  | none => false

/-- Main loop of _config_with_parent over the remaining lines, carrying
path_dict (pd) and line_path_list (lpl).  Each path token is kept together
with its path_dict registration width (for the comment-attachment branch,
which stores the raw previous line, the annotation is that line's own
indentation width). -/
def buildLoopW (full comm : List Line) : List Line → PD → List (Nat × Line) → List RecW
  | [], _, _ => []
  | line :: rest, pd, lpl =>
    if startsWithAny comm line then
      if lpl.isEmpty then
        let idx := List.indexOf line full
        if 1 ≤ idx then
          let before := (full.get? (idx - 1)).getD []
          if startsWithAny comm before then
            ([], line) :: buildLoopW full comm rest pd lpl
          else
            ([(indentWidth before, before)], line) ::
              buildLoopW full comm rest pd [(indentWidth before, before)]
        else ([], line) :: buildLoopW full comm rest pd lpl
      else (lpl, line) :: buildLoopW full comm rest pd lpl
    else
      let space := indentWidth line
      let pd1 := pdInsert pd space (strip line)
      let lpl1 := pdBelow pd1 space
      let pd2 := if pruneAfter comm rest space then pdDelete pd1 space else pd1
      (lpl1, line) :: buildLoopW full comm rest pd2 lpl1

/-- Erase the width annotations and join the path tokens with the separator. -/
def projRec (sep : Char) (r : RecW) : PathRec := (joinSep sep (r.1.map (·.2)), r.2)

/-- Nonblank input lines, right-stripped:
[i.rstrip() for i in config_text.splitlines() if i.strip() != '']. -/
def configList (text : Line) : List Line :=
  ((splitlines text).filter (fun l => !(strip l).isEmpty)).map rstrip

/-- _config_with_parent with width annotations kept; none models the fatal
tab-character SystemError. -/
def configWithParentW (text : Line) (comm : List Line) : Option (List RecW) :=
  if text.contains '\t' then none
  else some (buildLoopW (configList text) comm (configList text) [] [])

/-- _config_with_parent: the record sequence built from raw text. -/
def configWithParent (text : Line) (comm : List Line) (sep : Char) : Option (List PathRec) :=
  (configWithParentW text comm).map (fun l => l.map (projRec sep))

/-- cwp_to_text: join the record values with newlines. -/
def cwpToText (cwp : List PathRec) : Line := joinSep '\n' (cwp.map (·.2))

/-- _ec_text_convert on one compact line: split on the separator, all but the
last piece joined back as the path, the indentation of the value restored as
step_space * (path.count(sep) + 1) spaces (0 for comment values). -/
def convertLine (step : Nat) (comm : List Line) (sep : Char) (l : Line) : PathRec :=
  let parts := splitOnChar sep l
  let path := joinSep sep parts.dropLast
  let vraw := (parts.getLast?).getD []
  let spaceN := if startsWithAny comm vraw then 0 else path.count sep + 1
  (path, List.replicate (step * spaceN) ' ' ++ strip vraw)

/-- _ec_text_convert: compact cwp-text to a list of records with restored
indentation. -/
def ecTextConvert (text : Line) (step : Nat) (comm : List Line) (sep : Char) : List PathRec :=
  (splitlines (strip text)).map (convertLine step comm sep)

/-! ### Basic lemmas about the text helpers -/

theorem joinSep_cons_cons (sep : Char) (a b : Line) (ls : List Line) :
    joinSep sep (a :: b :: ls) = a ++ sep :: joinSep sep (b :: ls) := rfl

theorem not_nl_mem_splitlines {t : Line} {l : Line} (h : l ∈ splitlines t) : '\n' ∉ l := by
  induction t generalizing l with
  | nil => simp [splitlines] at h
  | cons c rest ih =>
    by_cases hc : c = '\n'
    · simp only [splitlines, hc, if_pos rfl] at h
      rcases List.mem_cons.mp h with h' | h'
      · subst h'; simp
      · exact ih h'
    · simp only [splitlines, if_neg hc] at h
      rcases hrest : splitlines rest with _ | ⟨l', ls⟩
      · rw [hrest] at h
        rcases List.mem_cons.mp h with h' | h'
        · subst h'
          intro hmem
          exact hc (List.mem_singleton.mp hmem).symm
        · simp at h'
      · rw [hrest] at h
        rcases List.mem_cons.mp h with h' | h'
        · subst h'
          intro hmem
          rcases List.mem_cons.mp hmem with h'' | h''
          · exact hc h''.symm
          · exact ih (hrest ▸ List.mem_cons_self l' ls) h''
        · exact ih (hrest ▸ List.mem_cons_of_mem l' h')

theorem splitlines_single {l : Line} (hnl : '\n' ∉ l) (hne : l ≠ []) :
    splitlines l = [l] := by
  induction l with
  | nil => exact absurd rfl hne
  | cons c rest ih =>
    have hc : c ≠ '\n' := fun h => hnl (h ▸ List.mem_cons_self c rest)
    have hnl' : '\n' ∉ rest := fun h => hnl (List.mem_cons_of_mem c h)
    simp only [splitlines, if_neg hc]
    rcases hrest : rest with _ | ⟨c', rest'⟩
    · simp [splitlines]
    · rw [← hrest, ih hnl' (by simp [hrest])]

theorem splitlines_append_nl {l : Line} (t : Line) (hnl : '\n' ∉ l) :
    splitlines (l ++ '\n' :: t) = l :: splitlines t := by
  induction l with
  | nil => simp [splitlines]
  | cons c rest ih =>
    have hc : c ≠ '\n' := fun h => hnl (h ▸ List.mem_cons_self c rest)
    have hnl' : '\n' ∉ rest := fun h => hnl (List.mem_cons_of_mem c h)
    simp only [List.cons_append, splitlines, if_neg hc, List.append_eq, ih hnl']

theorem splitlines_joinNl {ls : List Line}
    (h : ∀ l ∈ ls, '\n' ∉ l ∧ l ≠ []) :
    splitlines (joinSep '\n' ls) = ls := by
  induction ls with
  | nil => rfl
  | cons l ls ih =>
    rcases ls with _ | ⟨l2, ls'⟩
    · exact splitlines_single (h l (by simp)).1 (h l (by simp)).2
    · rw [joinSep_cons_cons, splitlines_append_nl _ (h l (by simp)).1,
        ih (fun x hx => h x (List.mem_cons_of_mem l hx))]

theorem configList_eq_splitlines {text : Line}
    (h : ∀ l ∈ splitlines text, strip l ≠ [] ∧ rstrip l = l) :
    configList text = splitlines text := by
  unfold configList
  have hf : (splitlines text).filter (fun l => !(strip l).isEmpty) = splitlines text := by
    apply List.filter_eq_self.mpr
    intro a ha
    simpa using (h a ha).1
  rw [hf]
  have : ∀ l ∈ splitlines text, rstrip l = id l := fun l hl => (h l hl).2
  rw [List.map_congr_left this, List.map_id]

/-! ### Record values are the source lines, in order -/

theorem buildLoopW_values (full comm : List Line) :
    ∀ (rem : List Line) (pd : PD) (lpl : List (Nat × Line)),
    (buildLoopW full comm rem pd lpl).map (·.2) = rem := by
  intro rem
  induction rem with
  | nil => intro pd lpl; rfl
  | cons line rest ih =>
    intro pd lpl
    simp only [buildLoopW]
    repeat' split
    all_goals simp [ih]

/-- C6: building from text containing a literal tab yields the fatal error
(no record sequence); building from tab-free text never does. -/
theorem C6_tab_rejection (text : Line) (comm : List Line) (sep : Char) :
    configWithParent text comm sep = none ↔ '\t' ∈ text := by
  by_cases h : '\t' ∈ text
  · simp [configWithParent, configWithParentW, List.elem_iff.mpr h, List.contains, h]
  · simp only [configWithParent, configWithParentW]
    rw [if_neg (by simpa [List.contains, List.elem_iff] using h)]
    simp [h]

/-- C1: for well-formed tab-free text (no blank lines, no trailing
whitespace on a line), building the record sequence and serializing it
back reproduces the text's line content and order. -/
theorem C1_round_trip (text : Line) (comm : List Line) (sep : Char)
    (htab : '\t' ∉ text)
    (hlines : ∀ l ∈ splitlines text, strip l ≠ [] ∧ rstrip l = l) :
    ∃ cwp, configWithParent text comm sep = some cwp ∧
      cwp.map (·.2) = splitlines text ∧
      splitlines (cwpToText cwp) = splitlines text := by
  have hc : text.contains '\t' = false := by
    simpa [List.contains, List.elem_iff] using htab
  have hvals : ((buildLoopW (configList text) comm (configList text) [] []).map
      (projRec sep)).map (·.2) = splitlines text := by
    rw [List.map_map]
    have hcomp : ((·.2 : PathRec → Line) ∘ projRec sep) = (·.2 : RecW → Line) := by
      funext r; rfl
    rw [hcomp, buildLoopW_values, configList_eq_splitlines hlines]
  refine ⟨(buildLoopW (configList text) comm (configList text) [] []).map (projRec sep),
    ?_, hvals, ?_⟩
  · unfold configWithParent configWithParentW
    rw [hc]
    rfl
  · rw [cwpToText, hvals]
    exact splitlines_joinNl (fun l hl =>
      ⟨not_nl_mem_splitlines hl, fun hnil => (hlines l hl).1 (by simp [hnil, strip, lstrip, rstrip])⟩)

/-- Witness for C1 at the concrete text "a\n b". -/
theorem C1_round_trip_witness :
    ∃ cwp, configWithParent ['a', '\n', ' ', 'b'] [] ',' = some cwp ∧
      cwp.map (·.2) = splitlines ['a', '\n', ' ', 'b'] ∧
      splitlines (cwpToText cwp) = splitlines ['a', '\n', ' ', 'b'] :=
  C1_round_trip ['a', '\n', ' ', 'b'] [] ',' (by decide) (by decide)

/-! ### Serial-window matching machinery (shared by the serial operations) -/

/-- Default record used with List.getD. -/
def dRec : PathRec := ([], [])

/-- Anchored literal matcher: re.match semantics of a metacharacter-free
pattern.  Used to instantiate the abstract regex oracle on concrete inputs. -/
def prefMatch (p s : Line) : Bool := p.isPrefixOf s

/-- One scan step of the serial-window loops (delete_serial_lines,
replace_serial_lines, add_after_lines, add_before_lines): r is the record
at the scan position, part the next len(dl) records (fewer at the tail).
With regex_match set and the first pattern pair matching r, the zipped
regex checks decide (zip truncates at the tail); otherwise the slice must
be literally equal to the whole pattern list. -/
def serialFire (rm : Line → Line → Bool) (regexMatch : Bool)
    (dl : List PathRec) (d0 : PathRec) (r : PathRec) (part : List PathRec) : Bool :=
  if regexMatch && rm d0.1 r.1 && rm d0.2 r.2 then
    ((dl.zip part).all fun pr => rm pr.1.1 pr.2.1) &&
      ((dl.zip part).all fun pr => rm pr.1.2 pr.2.2)
  else r == d0 && part == dl

/-- Index of the first scan position where the serial window fires. -/
def findHit (rm : Line → Line → Bool) (regexMatch : Bool)
    (dl : List PathRec) (d0 : PathRec) : List PathRec → Option Nat
  | [] => none
  | r :: rest =>
    if serialFire rm regexMatch dl d0 r ((r :: rest).take dl.length) then some 0
    else (findHit rm regexMatch dl d0 rest).map (· + 1)

theorem zip_all_iff {α β : Type} (f : α → β → Bool) (da : α) (db : β) :
    ∀ (l1 : List α) (l2 : List β),
    (((l1.zip l2).all fun pr => f pr.1 pr.2) = true ↔
      ∀ k < min l1.length l2.length, f (l1.getD k da) (l2.getD k db) = true) := by
  intro l1
  induction l1 with
  | nil => intro l2; simp
  | cons a l1 ih =>
    intro l2
    cases l2 with
    | nil => simp
    | cons b l2 =>
      simp only [List.zip_cons_cons, List.all_cons, Bool.and_eq_true, ih, List.length_cons]
      constructor
      · rintro ⟨hab, h⟩ k hk
        cases k with
        | zero => simpa using hab
        | succ k =>
          simp only [List.getD_cons_succ]
          exact h k (by omega)
      · intro h
        refine ⟨by simpa using h 0 (by omega), fun k hk => ?_⟩
        have := h (k + 1) (by omega)
        simpa using this

theorem findHit_eq_some_iff (rm : Line → Line → Bool) (rgx : Bool)
    (dl : List PathRec) (d0 : PathRec) :
    ∀ (cwp : List PathRec) (i : Nat),
    findHit rm rgx dl d0 cwp = some i ↔
      (i < cwp.length ∧
        serialFire rm rgx dl d0 (cwp.getD i dRec) ((cwp.drop i).take dl.length) = true ∧
        ∀ j < i,
          serialFire rm rgx dl d0 (cwp.getD j dRec) ((cwp.drop j).take dl.length) = false) := by
  intro cwp
  induction cwp with
  | nil => intro i; simp [findHit]
  | cons r rest ih =>
    intro i
    simp only [findHit]
    by_cases h : serialFire rm rgx dl d0 r ((r :: rest).take dl.length) = true
    · rw [if_pos h]
      constructor
      · rintro hi
        have : i = 0 := by
          cases hi; rfl
        subst this
        refine ⟨by simp, by simpa using h, fun j hj => absurd hj (Nat.not_lt_zero j)⟩
      · rintro ⟨hi, hfire, hmin⟩
        cases i with
        | zero => rfl
        | succ i =>
          have := hmin 0 (by omega)
          simp only [List.getD_cons_zero, List.drop_zero] at this
          rw [h] at this
          exact absurd this (by simp)
    · rw [if_neg h]
      cases i with
      | zero =>
        simp only [Option.map_eq_some']
        constructor
        · rintro ⟨j, _, hj⟩
          omega
        · rintro ⟨_, hfire, _⟩
          simp only [List.getD_cons_zero, List.drop_zero] at hfire
          exact absurd hfire h
      | succ i =>
        simp only [Option.map_eq_some']
        constructor
        · rintro ⟨j, hj, hji⟩
          have hje : j = i := by omega
          rw [hje] at hj
          obtain ⟨hlen, hfire, hmin⟩ := (ih i).mp hj
          refine ⟨by simpa using Nat.succ_lt_succ hlen, by simpa using hfire, ?_⟩
          intro j hji
          cases j with
          | zero =>
            simp only [List.getD_cons_zero, List.drop_zero]
            simpa using h
          | succ j =>
            have := hmin j (by omega)
            simpa using this
        · rintro ⟨hlen, hfire, hmin⟩
          refine ⟨i, (ih i).mpr ⟨by simpa using hlen, by simpa using hfire, ?_⟩, rfl⟩
          intro j hji
          have := hmin (j + 1) (by omega)
          simpa using this

theorem findHit_eq_none_iff (rm : Line → Line → Bool) (rgx : Bool)
    (dl : List PathRec) (d0 : PathRec) :
    ∀ (cwp : List PathRec),
    findHit rm rgx dl d0 cwp = none ↔
      ∀ i < cwp.length,
        serialFire rm rgx dl d0 (cwp.getD i dRec) ((cwp.drop i).take dl.length) = false := by
  intro cwp
  induction cwp with
  | nil => simp [findHit]
  | cons r rest ih =>
    simp only [findHit]
    by_cases h : serialFire rm rgx dl d0 r ((r :: rest).take dl.length) = true
    · rw [if_pos h]
      constructor
      · rintro ⟨⟩
      · intro hall
        have := hall 0 (by simp)
        simp only [List.getD_cons_zero, List.drop_zero] at this
        rw [h] at this
        exact absurd this (by simp)
    · rw [if_neg h]
      simp only [Option.map_eq_none', ih]
      constructor
      · intro hall i hi
        cases i with
        | zero =>
          simp only [List.getD_cons_zero, List.drop_zero]
          simpa using h
        | succ i =>
          have := hall i (by simpa using Nat.lt_of_succ_lt_succ hi)
          simpa using this
      · intro hall i hi
        have := hall (i + 1) (by simpa using Nat.succ_lt_succ hi)
        simpa using this

/-- While-loop of delete_serial_lines: delete the first firing window
(slice of len(dl) records, fewer at the tail) and, when multiple_match,
restart the scan from index 0. -/
def deleteSerialLoop (rm : Line → Line → Bool) (regexMatch mult : Bool)
    (d0 : PathRec) (dtail : List PathRec) (cwp : List PathRec) : List PathRec :=
  match h : findHit rm regexMatch (d0 :: dtail) d0 cwp with
  | none => cwp
  | some i =>
    if mult then
      deleteSerialLoop rm regexMatch mult d0 dtail
        (cwp.take i ++ cwp.drop (i + (dtail.length + 1)))
    else cwp.take i ++ cwp.drop (i + (dtail.length + 1))
termination_by cwp.length
decreasing_by
  have hi := ((findHit_eq_some_iff rm regexMatch (d0 :: dtail) d0 cwp i).mp h).1
  simp only [List.length_append, List.length_take, List.length_drop]
  omega

/-- delete_serial_lines: none models the IndexError raised when the parsed
delete block is empty while the sequence is not. -/
def deleteSerialLines (rm : Line → Line → Bool) (step : Nat) (comm : List Line) (sep : Char)
    (delText : Line) (regexMatch mult : Bool) (cwp : List PathRec) : Option (List PathRec) :=
  match ecTextConvert delText step comm sep with
  | [] => if cwp.isEmpty then some cwp else none
  | d0 :: dtail => some (deleteSerialLoop rm regexMatch mult d0 dtail cwp)

theorem getD_drop_take {α : Type} (l : List α) (i N k : Nat) (d : α) (hk : k < N) :
    ((l.drop i).take N).getD k d = l.getD (i + k) d := by
  simp [List.getD_eq_getElem?_getD, List.getElem?_take_of_lt hk, List.getElem?_drop]

theorem getD_map_of_lt {α β : Type} (f : α → β) (l : List α) (i : Nat) (d : α) (db : β)
    (hi : i < l.length) : (l.map f).getD i db = f (l.getD i d) := by
  simp [List.getD_eq_getElem?_getD, List.getElem?_map, List.getElem?_eq_getElem hi]

/-- Window-match contract at position i as the code implements it: in regex
mode the gate is pattern pair 0 matching record i's path and raw value, and
then every offset k below min(N, len - i) must match pairwise — the zip
truncates, so a tail window of fewer than N records can fire; otherwise the
N-record slice at i must equal the whole pattern list. -/
def hitSpecB (rm : Line → Line → Bool) (regexMatch : Bool)
    (dl : List PathRec) (cwp : List PathRec) (i : Nat) : Bool :=
  decide (i < cwp.length) &&
    (if regexMatch && rm (dl.getD 0 dRec).1 (cwp.getD i dRec).1 &&
        rm (dl.getD 0 dRec).2 (cwp.getD i dRec).2 then
      decide (∀ k, k < min dl.length (cwp.length - i) →
        rm (dl.getD k dRec).1 (cwp.getD (i + k) dRec).1 = true ∧
        rm (dl.getD k dRec).2 (cwp.getD (i + k) dRec).2 = true)
    else decide ((cwp.drop i).take dl.length = dl ∧ cwp.getD i dRec = dl.getD 0 dRec))

theorem hitSpecB_lt {rm : Line → Line → Bool} {rgx : Bool}
    {dl cwp : List PathRec} {i : Nat} (h : hitSpecB rm rgx dl cwp i = true) :
    i < cwp.length := by
  have := (Bool.and_eq_true _ _).mp h |>.1
  simpa using this

theorem hitSpecB_of_ge {rm : Line → Line → Bool} {rgx : Bool}
    {dl cwp : List PathRec} {i : Nat} (h : cwp.length ≤ i) :
    hitSpecB rm rgx dl cwp i = false := by
  unfold hitSpecB
  have : decide (i < cwp.length) = false := by simpa using Nat.not_lt.mpr h
  rw [this, Bool.false_and]

theorem serialFire_iff_hitSpecB (rm : Line → Line → Bool) (rgx : Bool)
    (dl : List PathRec) (cwp : List PathRec) (i : Nat) (hi : i < cwp.length) :
    (serialFire rm rgx dl (dl.getD 0 dRec) (cwp.getD i dRec)
        ((cwp.drop i).take dl.length) = true) ↔ hitSpecB rm rgx dl cwp i = true := by
  unfold serialFire hitSpecB
  rw [decide_eq_true hi, Bool.true_and]
  have hplen : ((cwp.drop i).take dl.length).length = min dl.length (cwp.length - i) := by
    simp [List.length_take, List.length_drop]
  by_cases hg : (rgx && rm (dl.getD 0 dRec).1 (cwp.getD i dRec).1 &&
      rm (dl.getD 0 dRec).2 (cwp.getD i dRec).2) = true
  · rw [if_pos hg, if_pos hg, Bool.and_eq_true]
    rw [zip_all_iff (fun a b => rm a.1 b.1) dRec dRec,
      zip_all_iff (fun a b => rm a.2 b.2) dRec dRec, decide_eq_true_eq]
    constructor
    · rintro ⟨hp, hv⟩ k hk
      have hkmin : k < min dl.length ((cwp.drop i).take dl.length).length := by
        rw [hplen]; omega
      have h1 := hp k hkmin
      have h2 := hv k hkmin
      rw [getD_drop_take cwp i dl.length k dRec (by omega)] at h1 h2
      exact ⟨h1, h2⟩
    · intro h
      constructor
      · intro k hk
        rw [hplen] at hk
        rw [getD_drop_take cwp i dl.length k dRec (by omega)]
        exact (h k (by omega)).1
      · intro k hk
        rw [hplen] at hk
        rw [getD_drop_take cwp i dl.length k dRec (by omega)]
        exact (h k (by omega)).2
  · rw [if_neg hg, if_neg hg, Bool.and_eq_true, decide_eq_true_eq, beq_iff_eq, beq_iff_eq]
    constructor
    · rintro ⟨h1, h2⟩; exact ⟨h2, h1⟩
    · rintro ⟨h1, h2⟩; exact ⟨h2, h1⟩

/-- Compact text of a record as rendered by cwp_serial_check:
path + sep + value.lstrip(). -/
def mergedText (sep : Char) (r : PathRec) : Line := r.1 ++ sep :: lstrip r.2

/-- Scan loop of cwp_serial_check: at each position where the first pattern
line anchored-matches, test the zipped window of all pattern lines
(truncating at the tail) and accept on success. -/
def serialCheckScan (rm : Line → Line → Bool) (p0 : Line) (pats : List Line) :
    List Line → Bool
  | [] => false
  | v :: rest =>
    if rm p0 v then
      if (pats.zip ((v :: rest).take pats.length)).all fun pr => rm pr.1 pr.2 then true
      else serialCheckScan rm p0 pats rest
    else serialCheckScan rm p0 pats rest

/-- cwp_serial_check: parse the block into stripped nonblank lines and scan
the compact rendering of the sequence.  With an empty pattern block the
first pattern line is indexed only inside the loop, so the call errors
(none, the IndexError) only when the sequence is nonempty; over an empty
sequence the loop never runs and the result is False. -/
def cwpSerialCheck (rm : Line → Line → Bool) (sep : Char) (patText : Line)
    (cwp : List PathRec) : Option Bool :=
  match ((splitlines patText).filter (fun i => !(strip i).isEmpty)).map strip with
  | [] => if cwp.isEmpty then some false else none
  | p0 :: prest => some (serialCheckScan rm p0 (p0 :: prest) (cwp.map (mergedText sep)))

theorem serialCheckScan_iff (rm : Line → Line → Bool) (p0 : Line) (pats : List Line) :
    ∀ merged : List Line,
    serialCheckScan rm p0 pats merged = true ↔
      ∃ i, i < merged.length ∧ rm p0 (merged.getD i []) = true ∧
        ((pats.zip ((merged.drop i).take pats.length)).all fun pr => rm pr.1 pr.2) = true := by
  intro merged
  induction merged with
  | nil => simp [serialCheckScan]
  | cons v rest ih =>
    simp only [serialCheckScan]
    by_cases h0 : rm p0 v = true
    · rw [if_pos h0]
      by_cases hall : ((pats.zip ((v :: rest).take pats.length)).all fun pr => rm pr.1 pr.2) = true
      · rw [if_pos hall]
        constructor
        · intro _
          exact ⟨0, by simp, by simpa using h0, by simpa using hall⟩
        · intro _; rfl
      · rw [if_neg hall, ih]
        constructor
        · rintro ⟨i, hi, hp, ha⟩
          exact ⟨i + 1, by simpa using Nat.succ_lt_succ hi, by simpa using hp,
            by simpa using ha⟩
        · rintro ⟨i, hi, hp, ha⟩
          cases i with
          | zero =>
            simp only [List.getD_cons_zero, List.drop_zero] at hp ha
            exact absurd ha hall
          | succ i =>
            refine ⟨i, by simpa using Nat.lt_of_succ_lt_succ hi, by simpa using hp,
              by simpa using ha⟩
    · rw [if_neg h0, ih]
      constructor
      · rintro ⟨i, hi, hp, ha⟩
        exact ⟨i + 1, by simpa using Nat.succ_lt_succ hi, by simpa using hp,
          by simpa using ha⟩
      · rintro ⟨i, hi, hp, ha⟩
        cases i with
        | zero =>
          simp only [List.getD_cons_zero] at hp
          exact absurd hp h0
        | succ i =>
          refine ⟨i, by simpa using Nat.lt_of_succ_lt_succ hi, by simpa using hp,
            by simpa using ha⟩

theorem serialFire_iff_hitSpecB' (rm : Line → Line → Bool) (rgx : Bool)
    (d0 : PathRec) (dtail : List PathRec) (cwp : List PathRec) (i : Nat)
    (hi : i < cwp.length) :
    (serialFire rm rgx (d0 :: dtail) d0 (cwp.getD i dRec)
        ((cwp.drop i).take (d0 :: dtail).length) = true) ↔
      hitSpecB rm rgx (d0 :: dtail) cwp i = true :=
  serialFire_iff_hitSpecB rm rgx (d0 :: dtail) cwp i hi

theorem findHit_some_iff_hitSpecB (rm : Line → Line → Bool) (rgx : Bool)
    (d0 : PathRec) (dtail : List PathRec) (cwp : List PathRec) (i : Nat) :
    findHit rm rgx (d0 :: dtail) d0 cwp = some i ↔
      (hitSpecB rm rgx (d0 :: dtail) cwp i = true ∧
        ∀ j < i, hitSpecB rm rgx (d0 :: dtail) cwp j = false) := by
  rw [findHit_eq_some_iff]
  constructor
  · rintro ⟨hlen, hfire, hmin⟩
    refine ⟨(serialFire_iff_hitSpecB' rm rgx d0 dtail cwp i hlen).mp hfire, fun j hj => ?_⟩
    have hjlen : j < cwp.length := Nat.lt_trans hj hlen
    cases hb : hitSpecB rm rgx (d0 :: dtail) cwp j with
    | false => rfl
    | true =>
      have hf := (serialFire_iff_hitSpecB' rm rgx d0 dtail cwp j hjlen).mpr hb
      rw [hmin j hj] at hf
      exact absurd hf (by simp)
  · rintro ⟨hb, hmin⟩
    have hlen := hitSpecB_lt hb
    refine ⟨hlen, (serialFire_iff_hitSpecB' rm rgx d0 dtail cwp i hlen).mpr hb, fun j hj => ?_⟩
    cases hf : serialFire rm rgx (d0 :: dtail) d0 (cwp.getD j dRec)
        ((cwp.drop j).take (d0 :: dtail).length) with
    | false => rfl
    | true =>
      have := (serialFire_iff_hitSpecB' rm rgx d0 dtail cwp j (Nat.lt_trans hj hlen)).mp hf
      rw [hmin j hj] at this
      exact absurd this (by simp)

theorem findHit_none_iff_hitSpecB (rm : Line → Line → Bool) (rgx : Bool)
    (d0 : PathRec) (dtail : List PathRec) (cwp : List PathRec) :
    findHit rm rgx (d0 :: dtail) d0 cwp = none ↔
      ∀ i, hitSpecB rm rgx (d0 :: dtail) cwp i = false := by
  rw [findHit_eq_none_iff]
  constructor
  · intro h i
    by_cases hi : i < cwp.length
    · cases hb : hitSpecB rm rgx (d0 :: dtail) cwp i with
      | false => rfl
      | true =>
        have hf := (serialFire_iff_hitSpecB' rm rgx d0 dtail cwp i hi).mpr hb
        rw [h i hi] at hf
        exact absurd hf (by simp)
    · exact hitSpecB_of_ge (by omega)
  · intro h i hi
    cases hf : serialFire rm rgx (d0 :: dtail) d0 (cwp.getD i dRec)
        ((cwp.drop i).take (d0 :: dtail).length) with
    | false => rfl
    | true =>
      have := (serialFire_iff_hitSpecB' rm rgx d0 dtail cwp i hi).mp hf
      rw [h i] at this
      exact absurd this (by simp)

theorem deleteSerialLoop_none (rm : Line → Line → Bool) (rgx mult : Bool)
    (d0 : PathRec) (dtail : List PathRec) (cwp : List PathRec)
    (h : findHit rm rgx (d0 :: dtail) d0 cwp = none) :
    deleteSerialLoop rm rgx mult d0 dtail cwp = cwp := by
  unfold deleteSerialLoop
  split
  · rfl
  · rename_i i heq
    rw [h] at heq
    exact absurd heq (by simp)

theorem deleteSerialLoop_single (rm : Line → Line → Bool) (rgx : Bool)
    (d0 : PathRec) (dtail : List PathRec) (cwp : List PathRec) (i : Nat)
    (h : findHit rm rgx (d0 :: dtail) d0 cwp = some i) :
    deleteSerialLoop rm rgx false d0 dtail cwp =
      cwp.take i ++ cwp.drop (i + (dtail.length + 1)) := by
  unfold deleteSerialLoop
  split
  · rename_i heq
    rw [h] at heq
    exact absurd heq (by simp)
  · rename_i j heq
    rw [h] at heq
    have : j = i := by
      cases heq; rfl
    subst this
    rfl

theorem deleteSerialLoop_mult_step (rm : Line → Line → Bool) (rgx : Bool)
    (d0 : PathRec) (dtail : List PathRec) (cwp : List PathRec) (i : Nat)
    (h : findHit rm rgx (d0 :: dtail) d0 cwp = some i) :
    deleteSerialLoop rm rgx true d0 dtail cwp =
      deleteSerialLoop rm rgx true d0 dtail
        (cwp.take i ++ cwp.drop (i + (dtail.length + 1))) := by
  unfold deleteSerialLoop
  split
  · rename_i heq
    rw [h] at heq
    exact absurd heq (by simp)
  · rename_i j heq
    rw [h] at heq
    have : j = i := by
      cases heq; rfl
    subst this
    rw [if_pos rfl]
    exact deleteSerialLoop.eq_def rm rgx true d0 dtail _

theorem deleteSerialLoop_mult_fix (rm : Line → Line → Bool) (rgx : Bool)
    (d0 : PathRec) (dtail : List PathRec) :
    ∀ (n : Nat) (cwp : List PathRec), cwp.length ≤ n →
    findHit rm rgx (d0 :: dtail) d0 (deleteSerialLoop rm rgx true d0 dtail cwp) = none := by
  intro n
  induction n with
  | zero =>
    intro cwp hlen
    have : cwp = [] := List.length_eq_zero.mp (by omega)
    subst this
    rw [deleteSerialLoop_none rm rgx true d0 dtail [] rfl]
    rfl
  | succ n ih =>
    intro cwp hlen
    cases h : findHit rm rgx (d0 :: dtail) d0 cwp with
    | none => rw [deleteSerialLoop_none rm rgx true d0 dtail cwp h]; exact h
    | some i =>
      rw [deleteSerialLoop_mult_step rm rgx d0 dtail cwp i h]
      apply ih
      have hi := ((findHit_eq_some_iff rm rgx (d0 :: dtail) d0 cwp i).mp h).1
      simp only [List.length_append, List.length_take, List.length_drop]
      omega

/-- C2 (amended): the window contract of the serial operations as the code
implements it.  delete_serial_lines fires at position i exactly when, in
regex mode, pattern pair 0 matches record i's path and raw (not
left-stripped) value and every offset k below min(N, len-i) matches
pairwise — the zip truncates, so a tail run of fewer than N records can
match and be deleted — or, in literal mode, the N-record slice at i equals
the whole pattern list, which does force N consecutive records to exist;
the deletion removes exactly the (possibly truncated) slice at the first
firing position.  cwp_serial_check accepts iff at some position every
pattern line, up to the same tail truncation, anchored-matches the compact
path+sep+left-stripped-value rendering of the corresponding record. -/
theorem C2_window_contract (rm : Line → Line → Bool) (rgx : Bool)
    (d0 : PathRec) (dtail : List PathRec) (cwp : List PathRec) :
    (∀ i, findHit rm rgx (d0 :: dtail) d0 cwp = some i ↔
        (hitSpecB rm rgx (d0 :: dtail) cwp i = true ∧
          ∀ j < i, hitSpecB rm rgx (d0 :: dtail) cwp j = false)) ∧
    (∀ i, hitSpecB rm false (d0 :: dtail) cwp i = true →
        i + (dtail.length + 1) ≤ cwp.length) ∧
    (∀ i, findHit rm rgx (d0 :: dtail) d0 cwp = some i →
        deleteSerialLoop rm rgx false d0 dtail cwp =
          cwp.take i ++ cwp.drop (i + (dtail.length + 1))) ∧
    (∀ (sep : Char) (p0 : Line) (prest : List Line),
      serialCheckScan rm p0 (p0 :: prest) (cwp.map (mergedText sep)) = true ↔
        ∃ i, i < cwp.length ∧
          ∀ k, k < min (prest.length + 1) (cwp.length - i) →
            rm ((p0 :: prest).getD k []) (mergedText sep (cwp.getD (i + k) dRec)) = true) := by
  refine ⟨fun i => findHit_some_iff_hitSpecB rm rgx d0 dtail cwp i, fun i h => ?_,
    fun i h => deleteSerialLoop_single rm rgx d0 dtail cwp i h, fun sep p0 prest => ?_⟩
  · have hlen := hitSpecB_lt h
    unfold hitSpecB at h
    rw [Bool.and_eq_true] at h
    have h2 := h.2
    rw [if_neg (by simp), decide_eq_true_eq] at h2
    have := congrArg List.length h2.1
    simp only [List.length_take, List.length_drop, List.length_cons] at this
    omega
  · rw [serialCheckScan_iff]
    have hmlen : (cwp.map (mergedText sep)).length = cwp.length := List.length_map _ _
    constructor
    · rintro ⟨i, hi, -, hall⟩
      rw [hmlen] at hi
      rw [zip_all_iff rm [] []] at hall
      refine ⟨i, hi, fun k hk => ?_⟩
      have hplen : (((cwp.map (mergedText sep)).drop i).take (p0 :: prest).length).length
          = min (prest.length + 1) (cwp.length - i) := by
        simp [List.length_take, List.length_drop]
      have hk' : k < min (p0 :: prest).length
          (((cwp.map (mergedText sep)).drop i).take (p0 :: prest).length).length := by
        rw [hplen]
        simp only [List.length_cons]
        omega
      have := hall k hk'
      rw [getD_drop_take (cwp.map (mergedText sep)) i (p0 :: prest).length k [] (by
        simp only [List.length_cons]; omega)] at this
      rwa [getD_map_of_lt (mergedText sep) cwp (i + k) dRec [] (by omega)] at this
    · rintro ⟨i, hi, hall⟩
      have hp0 : rm p0 ((cwp.map (mergedText sep)).getD i []) = true := by
        have h0 := hall 0 (by omega)
        rw [getD_map_of_lt (mergedText sep) cwp i dRec [] hi]
        simpa using h0
      refine ⟨i, by omega, hp0, ?_⟩
      rw [zip_all_iff rm [] []]
      intro k hk
      have hplen : (((cwp.map (mergedText sep)).drop i).take (p0 :: prest).length).length
          = min (prest.length + 1) (cwp.length - i) := by
        simp [List.length_take, List.length_drop]
      rw [hplen] at hk
      simp only [List.length_cons] at hk
      rw [getD_drop_take (cwp.map (mergedText sep)) i (p0 :: prest).length k [] (by
        simp only [List.length_cons]; omega)]
      rw [getD_map_of_lt (mergedText sep) cwp (i + k) dRec [] (by omega)]
      exact hall k (by omega)

/-- The window contract exactly as claim C2 states it for regex mode: N
consecutive records must exist at i, every pattern pair must match its
record, and the value comparison is against the left-stripped value. -/
def claimWindowRegex (rm : Line → Line → Bool) (dl cwp : List PathRec) (i : Nat) : Prop :=
  i + dl.length ≤ cwp.length ∧
    ∀ k < dl.length,
      rm (dl.getD k dRec).1 (cwp.getD (i + k) dRec).1 = true ∧
      rm (dl.getD k dRec).2 (lstrip (cwp.getD (i + k) dRec).2) = true

/-- Counterexample to C2 as stated: with pattern block "a\nb" (N = 2),
step 1, regex mode, and a two-record sequence whose tail record matches
only the first pattern pair, delete_serial_lines deletes the one-record
tail window even though no position has N consecutive matching records. -/
theorem C2_counterexample :
    deleteSerialLines prefMatch 1 [] ',' ['a', '\n', 'b'] true false
        [([], ['x']), ([], [' ', 'a'])] = some [([], ['x'])] ∧
    (ecTextConvert ['a', '\n', 'b'] 1 [] ',').length = 2 ∧
    ∀ i, ¬ claimWindowRegex prefMatch (ecTextConvert ['a', '\n', 'b'] 1 [] ',')
        [([], ['x']), ([], [' ', 'a'])] i := by
  refine ⟨?_, by decide, ?_⟩
  · show some (deleteSerialLoop prefMatch true false ([], [' ', 'a']) [([], [' ', 'b'])]
        [([], ['x']), ([], [' ', 'a'])]) = some [([], ['x'])]
    rw [deleteSerialLoop_single prefMatch true ([], [' ', 'a']) [([], [' ', 'b'])]
      [([], ['x']), ([], [' ', 'a'])] 1 (by decide)]
    decide
  · rintro i ⟨hlen, hall⟩
    have h1 : (ecTextConvert ['a', '\n', 'b'] 1 [] ',').length = 2 := by decide
    rw [h1] at hlen hall
    have hi : i = 0 := by
      have h2 : ([([], ['x']), ([], [' ', 'a'])] : List PathRec).length = 2 := by decide
      omega
    subst hi
    have := (hall 1 (by omega)).2
    revert this
    decide

/-- Witness applying the amended C2 contract at a concrete input: the
one-record tail window fires at position 1 and the deletion removes it. -/
theorem C2_window_contract_witness :
    deleteSerialLoop prefMatch true false ([], [' ', 'a']) [([], [' ', 'b'])]
        [([], ['x']), ([], [' ', 'a'])] = [([], ['x'])] := by
  have h := (C2_window_contract prefMatch true ([], [' ', 'a']) [([], [' ', 'b'])]
    [([], ['x']), ([], [' ', 'a'])]).2.2.1 1 (by decide)
  rw [h]
  decide

/-- C7: with multiple_match false, delete_serial_lines removes at most the
first firing window (a contiguous slice), leaving all records outside it
unchanged and in order; with multiple_match true, after the
restart-from-zero cascade no firing window remains. -/
theorem C7_delete_serial_frame (rm : Line → Line → Bool) (rgx : Bool)
    (d0 : PathRec) (dtail : List PathRec) (cwp : List PathRec) :
    ((∀ i, hitSpecB rm rgx (d0 :: dtail) cwp i = false) ∧
        deleteSerialLoop rm rgx false d0 dtail cwp = cwp ∨
      ∃ i, i < cwp.length ∧ hitSpecB rm rgx (d0 :: dtail) cwp i = true ∧
        (∀ j < i, hitSpecB rm rgx (d0 :: dtail) cwp j = false) ∧
        deleteSerialLoop rm rgx false d0 dtail cwp =
          cwp.take i ++ cwp.drop (i + (dtail.length + 1))) ∧
    ∀ i, hitSpecB rm rgx (d0 :: dtail)
        (deleteSerialLoop rm rgx true d0 dtail cwp) i = false := by
  constructor
  · cases h : findHit rm rgx (d0 :: dtail) d0 cwp with
    | none =>
      exact Or.inl ⟨(findHit_none_iff_hitSpecB rm rgx d0 dtail cwp).mp h,
        deleteSerialLoop_none rm rgx false d0 dtail cwp h⟩
    | some i =>
      obtain ⟨hb, hmin⟩ := (findHit_some_iff_hitSpecB rm rgx d0 dtail cwp i).mp h
      exact Or.inr ⟨i, hitSpecB_lt hb, hb, hmin,
        deleteSerialLoop_single rm rgx d0 dtail cwp i h⟩
  · exact (findHit_none_iff_hitSpecB rm rgx d0 dtail _).mp
      (deleteSerialLoop_mult_fix rm rgx d0 dtail cwp.length cwp (Nat.le_refl _))

/-- Witness applying C7 at a concrete input: deleting the single matching
window [" a"] from a two-record sequence leaves exactly the other record. -/
theorem C7_delete_serial_frame_witness :
    deleteSerialLoop prefMatch false false ([], [' ', 'a']) []
        [([], [' ', 'a']), ([], [' ', 'b'])] = [([], [' ', 'b'])] := by
  rcases (C7_delete_serial_frame prefMatch false ([], [' ', 'a']) []
      [([], [' ', 'a']), ([], [' ', 'b'])]).1 with ⟨hall, -⟩ | ⟨i, hi, hb, hmin, heq⟩
  · have := hall 0
    revert this
    decide
  · have hzero : i = 0 := by
      by_contra hne
      have := hmin 0 (by omega)
      revert this
      decide
    subst hzero
    rw [heq]
    decide

/-! ### The path/width invariant of the builder (C9) -/

theorem mem_pdInsert : ∀ (pd : PD) (k : Nat) (v : Line) (e : Nat × Line),
    e ∈ pdInsert pd k v → e = (k, v) ∨ e ∈ pd := by
  intro pd
  induction pd with
  | nil =>
    intro k v e he
    simp only [pdInsert] at he
    exact Or.inl (List.mem_singleton.mp he)
  | cons hd rest ih =>
    intro k v e he
    obtain ⟨k', v'⟩ := hd
    simp only [pdInsert] at he
    by_cases h1 : k < k'
    · rw [if_pos h1] at he
      rcases List.mem_cons.mp he with h | h
      · exact Or.inl h
      · exact Or.inr h
    · rw [if_neg h1] at he
      by_cases h2 : k = k'
      · rw [if_pos h2] at he
        rcases List.mem_cons.mp he with h | h
        · exact Or.inl h
        · exact Or.inr (List.mem_cons_of_mem _ h)
      · rw [if_neg h2] at he
        rcases List.mem_cons.mp he with h | h
        · exact Or.inr (h ▸ List.mem_cons_self _ _)
        · rcases ih k v e h with h' | h'
          · exact Or.inl h'
          · exact Or.inr (List.mem_cons_of_mem _ h')

theorem pdInsert_pairwise : ∀ (pd : PD) (k : Nat) (v : Line),
    List.Pairwise (fun a b => a.1 < b.1) pd →
    List.Pairwise (fun a b => a.1 < b.1) (pdInsert pd k v) := by
  intro pd
  induction pd with
  | nil => intro k v _; simp [pdInsert]
  | cons hd rest ih =>
    intro k v hp
    obtain ⟨k', v'⟩ := hd
    rw [List.pairwise_cons] at hp
    obtain ⟨hlt, hrest⟩ := hp
    simp only [pdInsert]
    by_cases h1 : k < k'
    · rw [if_pos h1, List.pairwise_cons]
      refine ⟨fun e he => ?_, List.pairwise_cons.mpr ⟨hlt, hrest⟩⟩
      rcases List.mem_cons.mp he with h | h
      · subst h; exact h1
      · exact Nat.lt_trans h1 (hlt e h)
    · rw [if_neg h1]
      by_cases h2 : k = k'
      · rw [if_pos h2, List.pairwise_cons]
        exact ⟨fun e he => h2 ▸ hlt e he, hrest⟩
      · rw [if_neg h2, List.pairwise_cons]
        refine ⟨fun e he => ?_, ih k v hrest⟩
        rcases mem_pdInsert rest k v e he with h | h
        · subst h; omega
        · exact hlt e h

theorem buildLoopW_invariant (full comm : List Line) :
    ∀ (rem : List Line) (pd : PD) (lpl : List (Nat × Line)),
    List.Pairwise (fun a b => a.1 < b.1) pd →
    ∀ r ∈ buildLoopW full comm rem pd lpl,
      startsWithAny comm r.2 = false →
      List.Pairwise (fun a b => a.1 < b.1) r.1 ∧ ∀ e ∈ r.1, e.1 < indentWidth r.2 := by
  intro rem
  induction rem with
  | nil => intro pd lpl _ r hr; simp [buildLoopW] at hr
  | cons line rest ih =>
    intro pd lpl hpd r hr hnc
    simp only [buildLoopW] at hr
    by_cases hcm : startsWithAny comm line
    · rw [if_pos hcm] at hr
      by_cases hlpl : lpl.isEmpty
      · rw [if_pos hlpl] at hr
        by_cases hidx : 1 ≤ List.indexOf line full
        · rw [if_pos hidx] at hr
          by_cases hbef : startsWithAny comm ((full.get? (List.indexOf line full - 1)).getD [])
          · rw [if_pos hbef] at hr
            rcases List.mem_cons.mp hr with h | h
            · subst h; rw [hcm] at hnc; exact absurd hnc (by simp)
            · exact ih pd lpl hpd r h hnc
          · rw [if_neg hbef] at hr
            rcases List.mem_cons.mp hr with h | h
            · subst h; rw [hcm] at hnc; exact absurd hnc (by simp)
            · exact ih pd _ hpd r h hnc
        · rw [if_neg hidx] at hr
          rcases List.mem_cons.mp hr with h | h
          · subst h; rw [hcm] at hnc; exact absurd hnc (by simp)
          · exact ih pd lpl hpd r h hnc
      · rw [if_neg hlpl] at hr
        rcases List.mem_cons.mp hr with h | h
        · subst h; rw [hcm] at hnc; exact absurd hnc (by simp)
        · exact ih pd lpl hpd r h hnc
    · rw [if_neg hcm] at hr
      have hpd1 : List.Pairwise (fun a b => a.1 < b.1)
          (pdInsert pd (indentWidth line) (strip line)) :=
        pdInsert_pairwise pd _ _ hpd
      rcases List.mem_cons.mp hr with h | h
      · subst h
        constructor
        · exact hpd1.sublist (List.filter_sublist _)
        · intro e he
          have := (List.mem_filter.mp he).2
          simpa using this
      · refine ih _ _ ?_ r h hnc
        split
        · exact hpd1.sublist (List.filter_sublist _)
        · exact hpd1

/-- C9 (amended): every non-comment record produced by build has its path
tokens registered at strictly smaller widths than the record's own
indentation width, in strictly ascending width order; comment records can
violate this (see the counterexample), since they inherit the previous
non-comment line's path verbatim. -/
theorem C9_path_width_invariant (text : Line) (comm : List Line) (cwpW : List RecW)
    (h : configWithParentW text comm = some cwpW) :
    (∀ sep, configWithParent text comm sep = some (cwpW.map (projRec sep))) ∧
    ∀ r ∈ cwpW, startsWithAny comm r.2 = false →
      List.Pairwise (fun a b => a.1 < b.1) r.1 ∧ ∀ e ∈ r.1, e.1 < indentWidth r.2 := by
  constructor
  · intro sep
    unfold configWithParent
    rw [h]
    rfl
  · unfold configWithParentW at h
    by_cases htab : text.contains '\t' = true
    · rw [if_pos htab] at h
      exact absurd h (by simp)
    · rw [if_neg htab] at h
      have hw : cwpW = buildLoopW (configList text) comm (configList text) [] [] := by
        cases h; rfl
      subst hw
      exact buildLoopW_invariant (configList text) comm (configList text) [] []
        List.Pairwise.nil

/-- Witness applying C9 to the text "a\n b": the record " b" has the single
path token "a" registered at width 0 < 1. -/
theorem C9_path_width_invariant_witness :
    List.Pairwise (fun a b : Nat × Line => a.1 < b.1) [(0, ['a'])] ∧
      ∀ e ∈ [((0 : Nat), (['a'] : Line))], e.1 < indentWidth [' ', 'b'] :=
  (C9_path_width_invariant ['a', '\n', ' ', 'b'] []
    [([], ['a']), ([(0, ['a'])], [' ', 'b'])] (by decide)).2
    ([(0, ['a'])], [' ', 'b']) (by decide) (by decide)

/-- Counterexample to C9 as stated for comment records: in "a\n b\n#c" with
comment prefix "#", the comment record "#c" (own width 0) inherits the path
token "a" registered at width 0, and 0 < 0 fails. -/
theorem C9_counterexample :
    configWithParentW ['a', '\n', ' ', 'b', '\n', '#', 'c'] [['#']] =
      some [([], ['a']), ([(0, ['a'])], [' ', 'b']), ([(0, ['a'])], ['#', 'c'])] ∧
    ¬ (0 < indentWidth ['#', 'c']) := by decide

/-! ### Indentation restoration by _ec_text_convert (C5) -/

theorem splitOnChar_sep_not_mem (sep : Char) :
    ∀ (l : Line) (p : Line), p ∈ splitOnChar sep l → sep ∉ p := by
  intro l
  induction l with
  | nil =>
    intro p hp
    simp only [splitOnChar, List.mem_singleton] at hp
    subst hp
    simp
  | cons c rest ih =>
    intro p hp
    simp only [splitOnChar] at hp
    by_cases hc : c = sep
    · rw [if_pos hc] at hp
      rcases List.mem_cons.mp hp with h | h
      · subst h; simp
      · exact ih p h
    · rw [if_neg hc] at hp
      rcases hrest : splitOnChar sep rest with _ | ⟨l', ls⟩
      · rw [hrest] at hp
        rcases List.mem_cons.mp hp with h | h
        · subst h
          intro hmem
          exact hc (List.mem_singleton.mp hmem).symm
        · simp at h
      · rw [hrest] at hp
        rcases List.mem_cons.mp hp with h | h
        · subst h
          intro hmem
          rcases List.mem_cons.mp hmem with h' | h'
          · exact hc h'.symm
          · exact ih l' (hrest ▸ List.mem_cons_self l' ls) h'
        · exact ih p (hrest ▸ List.mem_cons_of_mem l' h)

theorem count_joinSep (sep : Char) :
    ∀ (segs : List Line), (∀ s ∈ segs, sep ∉ s) →
    (joinSep sep segs).count sep = segs.length - 1 := by
  intro segs
  induction segs with
  | nil => intro _; simp [joinSep]
  | cons s rest ih =>
    intro h
    rcases rest with _ | ⟨s2, rest'⟩
    · simp only [joinSep, List.length_cons]
      simp [List.count_eq_zero.mpr (h s (by simp))]
    · rw [joinSep_cons_cons, List.count_append, List.count_cons]
      rw [ih (fun x hx => h x (List.mem_cons_of_mem s hx))]
      rw [List.count_eq_zero.mpr (h s (by simp))]
      simp [List.length_cons]

theorem configWithParent_values (text : Line) (comm : List Line) (sep : Char)
    (cwp : List PathRec) (h : configWithParent text comm sep = some cwp) :
    cwp.map (·.2) = configList text := by
  unfold configWithParent configWithParentW at h
  by_cases htab : text.contains '\t' = true
  · rw [if_pos htab] at h
    exact absurd h (by simp)
  · rw [if_neg htab] at h
    have hw : cwp = (buildLoopW (configList text) comm (configList text) [] []).map
        (projRec sep) := by
      cases h; rfl
    subst hw
    rw [List.map_map]
    have hcomp : ((·.2 : PathRec → Line) ∘ projRec sep) = (·.2 : RecW → Line) := by
      funext r; rfl
    rw [hcomp, buildLoopW_values]

/-- A strip-fixed nonempty line starts with a non-whitespace character. -/
theorem clean_head_not_space :
    ∀ (s : Line), strip s = s → s ≠ [] → ∃ c cs, s = c :: cs ∧ isPySpace c = false := by
  intro s hs hne
  rcases s with _ | ⟨c, cs⟩
  · exact absurd rfl hne
  · refine ⟨c, cs, rfl, ?_⟩
    cases hc : isPySpace c with
    | false => rfl
    | true =>
      have h1 : lstrip (c :: cs) = lstrip cs := by
        simp [lstrip, List.dropWhile_cons, hc]
      have h3 : (strip (c :: cs)).length ≤ cs.length := by
        unfold strip rstrip
        rw [h1]
        calc ((lstrip cs).reverse.dropWhile isPySpace).reverse.length
            = ((lstrip cs).reverse.dropWhile isPySpace).length := List.length_reverse _
          _ ≤ (lstrip cs).reverse.length := (List.dropWhile_sublist _).length_le
          _ = (lstrip cs).length := List.length_reverse _
          _ ≤ cs.length := (List.dropWhile_sublist _).length_le
      rw [hs] at h3
      have h4 : cs.length + 1 ≤ cs.length := by simpa using h3
      omega

theorem lstrip_replicate_append (s : Line) :
    ∀ n, lstrip (List.replicate n ' ' ++ s) = lstrip s := by
  intro n
  induction n with
  | zero => simp
  | succ n ih =>
    rw [List.replicate_succ, List.cons_append]
    have hsp : isPySpace ' ' = true := rfl
    have hstep : lstrip (' ' :: (List.replicate n ' ' ++ s)) =
        lstrip (List.replicate n ' ' ++ s) := by
      simp only [lstrip, List.dropWhile_cons]
      rw [if_pos hsp]
    rw [hstep, ih]

theorem strip_replicate_append {s : Line} (hs : strip s = s) (n : Nat) :
    strip (List.replicate n ' ' ++ s) = s := by
  show rstrip (lstrip (List.replicate n ' ' ++ s)) = s
  rw [lstrip_replicate_append s n]
  exact hs

theorem indentWidth_replicate_append {s : Line} (hs : strip s = s) (hne : s ≠ []) :
    ∀ n, indentWidth (List.replicate n ' ' ++ s) = n := by
  obtain ⟨c, cs, hcsh, hc⟩ := clean_head_not_space s hs hne
  intro n
  induction n with
  | zero =>
    rw [List.replicate_zero, List.nil_append, hcsh]
    simp [indentWidth, List.takeWhile_cons, hc]
  | succ n ih =>
    rw [List.replicate_succ, List.cons_append]
    show (List.takeWhile isPySpace (' ' :: (List.replicate n ' ' ++ s))).length = n + 1
    have hsp : isPySpace ' ' = true := rfl
    rw [List.takeWhile_cons, if_pos hsp]
    simp only [List.length_cons]
    rw [show (List.takeWhile isPySpace (List.replicate n ' ' ++ s)).length = n from ih]

/-- Registering a key strictly above every present key appends the entry. -/
theorem pdInsert_append_of_lt :
    ∀ (pd : PD) (k : Nat) (v : Line), (∀ e ∈ pd, e.1 < k) →
    pdInsert pd k v = pd ++ [(k, v)] := by
  intro pd
  induction pd with
  | nil => intro k v _; rfl
  | cons hd rest ih =>
    intro k v h
    obtain ⟨k', v'⟩ := hd
    have hk' : k' < k := h (k', v') (by simp)
    simp only [pdInsert]
    rw [if_neg (by omega), if_neg (by omega)]
    rw [ih k v (fun e he => h e (List.mem_cons_of_mem _ he))]
    rfl

theorem pdBelow_append_self (pd : PD) (k : Nat) (v : Line) (h : ∀ e ∈ pd, e.1 < k) :
    pdBelow (pd ++ [(k, v)]) k = pd := by
  unfold pdBelow
  rw [List.filter_append]
  rw [List.filter_eq_self.mpr (fun e he => by simpa using h e he)]
  simp

/-- The uniformly step-indented document lines for a chain of segments
starting at the given depth. -/
def ladder (step : Nat) : Nat → List Line → List Line
  | _, [] => []
  | k, s :: rest => (List.replicate (step * k) ' ' ++ s) :: ladder step (k + 1) rest

/-- The width-annotated ancestor chain of the segments starting at the
given depth. -/
def annotateFrom (step : Nat) : Nat → List Line → List (Nat × Line)
  | _, [] => []
  | k, s :: rest => (step * k, s) :: annotateFrom step (k + 1) rest

/-- The records build produces for a ladder: each line carries the
accumulated chain of all strictly shallower segments as its path. -/
def ladderRecsW (step : Nat) : Nat → List (Nat × Line) → List Line → List RecW
  | _, _, [] => []
  | k, acc, s :: rest =>
    (acc, List.replicate (step * k) ' ' ++ s) ::
      ladderRecsW step (k + 1) (acc ++ [(step * k, s)]) rest

/-- On a ladder of clean non-comment segments at strictly increasing
depths the main build loop registers each segment at its own width, never
prunes, and gives every line the full chain of shallower segments as its
path. -/
theorem buildLoopW_ladder (full comm : List Line) (step : Nat) (hstep : 1 ≤ step) :
    ∀ (ss : List Line) (k0 : Nat) (pd : PD) (lpl : List (Nat × Line)),
    (∀ s ∈ ss, strip s = s ∧ s ≠ []) →
    (∀ dl ∈ ladder step k0 ss, startsWithAny comm dl = false) →
    (∀ e ∈ pd, e.1 < step * k0) →
    buildLoopW full comm (ladder step k0 ss) pd lpl = ladderRecsW step k0 pd ss := by
  intro ss
  induction ss with
  | nil => intro k0 pd lpl _ _ _; rfl
  | cons s rest ih =>
    intro k0 pd lpl hclean hcomm hpd
    have hsclean := hclean s (by simp)
    have hline : startsWithAny comm (List.replicate (step * k0) ' ' ++ s) = false :=
      hcomm _ (by simp [ladder])
    have hiw : indentWidth (List.replicate (step * k0) ' ' ++ s) = step * k0 :=
      indentWidth_replicate_append hsclean.1 hsclean.2 (step * k0)
    have hst : strip (List.replicate (step * k0) ' ' ++ s) = s :=
      strip_replicate_append hsclean.1 (step * k0)
    have hprune : pruneAfter comm (ladder step (k0 + 1) rest) (step * k0) = false := by
      cases rest with
      | nil => rfl
      | cons s2 rest2 =>
        have hs2 := hclean s2 (by simp)
        have hline2 : startsWithAny comm
            (List.replicate (step * (k0 + 1)) ' ' ++ s2) = false :=
          hcomm _ (by simp [ladder])
        show pruneAfter comm
          ((List.replicate (step * (k0 + 1)) ' ' ++ s2) :: ladder step (k0 + 1 + 1) rest2)
          (step * k0) = false
        unfold pruneAfter
        rw [List.dropWhile_cons, if_neg (by rw [hline2]; exact Bool.false_ne_true)]
        simp only [List.head?_cons]
        rw [indentWidth_replicate_append hs2.1 hs2.2 (step * (k0 + 1))]
        apply decide_eq_false
        have h1 : step * k0 ≤ step * (k0 + 1) := Nat.mul_le_mul (Nat.le_refl step) (by omega)
        omega
    show buildLoopW full comm
        ((List.replicate (step * k0) ' ' ++ s) :: ladder step (k0 + 1) rest) pd lpl
      = (pd, List.replicate (step * k0) ' ' ++ s) ::
          ladderRecsW step (k0 + 1) (pd ++ [(step * k0, s)]) rest
    simp only [buildLoopW]
    rw [if_neg (by rw [hline]; exact Bool.false_ne_true)]
    rw [hiw, hst]
    rw [pdInsert_append_of_lt pd (step * k0) s hpd]
    rw [pdBelow_append_self pd (step * k0) s hpd]
    rw [hprune, if_neg Bool.false_ne_true]
    congr 1
    refine ih (k0 + 1) (pd ++ [(step * k0, s)]) pd
      (fun x hx => hclean x (List.mem_cons_of_mem s hx))
      (fun dl hdl => hcomm dl (by
        show dl ∈ (List.replicate (step * k0) ' ' ++ s) :: ladder step (k0 + 1) rest
        exact List.mem_cons_of_mem _ hdl)) ?_
    intro e he
    rcases List.mem_append.mp he with h | h
    · have h2 := hpd e h
      have h1 : step * k0 ≤ step * (k0 + 1) := Nat.mul_le_mul (Nat.le_refl step) (by omega)
      omega
    · have he2 : e = (step * k0, s) := by simpa using h
      subst he2
      show step * k0 < step * (k0 + 1)
      have h1 : step * (k0 + 1) = step * k0 + step := Nat.mul_succ step k0
      omega

theorem getLast_cons_of_ne_nil {α : Type} (a : α) (l : List α) (h : l ≠ []) :
    (a :: l).getLast? = l.getLast? := by
  cases l with
  | nil => exact absurd rfl h
  | cons b t => exact List.getLast?_cons_cons

theorem ladderRecsW_getLast (step : Nat) :
    ∀ (ss : List Line) (k : Nat) (acc : List (Nat × Line)), ss ≠ [] →
    (ladderRecsW step k acc ss).getLast? =
      some (acc ++ annotateFrom step k ss.dropLast,
        List.replicate (step * (k + (ss.length - 1))) ' ' ++ (ss.getLast?.getD [])) := by
  intro ss
  induction ss with
  | nil => intro k acc h; exact absurd rfl h
  | cons s rest ih =>
    intro k acc _
    cases rest with
    | nil =>
      show ([(acc, List.replicate (step * k) ' ' ++ s)] : List RecW).getLast? = _
      simp [annotateFrom]
    | cons s2 rest2 =>
      show ((acc, List.replicate (step * k) ' ' ++ s) ::
        ladderRecsW step (k + 1) (acc ++ [(step * k, s)]) (s2 :: rest2)).getLast? = _
      rw [getLast_cons_of_ne_nil _ _ (by
        show ((acc ++ [(step * k, s)], List.replicate (step * (k + 1)) ' ' ++ s2) ::
          ladderRecsW step (k + 1 + 1)
            ((acc ++ [(step * k, s)]) ++ [(step * (k + 1), s2)]) rest2) ≠ []
        exact List.cons_ne_nil _ _)]
      rw [ih (k + 1) (acc ++ [(step * k, s)]) (List.cons_ne_nil s2 rest2)]
      have hd : (s :: s2 :: rest2).dropLast = s :: (s2 :: rest2).dropLast := rfl
      rw [hd]
      have ha : annotateFrom step k (s :: (s2 :: rest2).dropLast) =
          (step * k, s) :: annotateFrom step (k + 1) (s2 :: rest2).dropLast := rfl
      rw [ha]
      have harith : (k + 1) + ((s2 :: rest2).length - 1) =
          k + ((s :: s2 :: rest2).length - 1) := by
        simp only [List.length_cons]
        omega
      rw [harith]
      have hlast : (s :: s2 :: rest2).getLast? = (s2 :: rest2).getLast? :=
        List.getLast?_cons_cons
      rw [hlast]
      rw [List.append_assoc]
      rfl

theorem annotateFrom_map_snd (step : Nat) :
    ∀ (ss : List Line) (k : Nat), (annotateFrom step k ss).map (·.2) = ss := by
  intro ss
  induction ss with
  | nil => intro k; rfl
  | cons s rest ih =>
    intro k
    show ((step * k, s) :: annotateFrom step (k + 1) rest).map (·.2) = s :: rest
    rw [List.map_cons, ih (k + 1)]

theorem getLast_of_map {α β : Type} (f : α → β) :
    ∀ (l : List α), (l.map f).getLast? = l.getLast?.map f := by
  intro l
  induction l with
  | nil => rfl
  | cons a t ih =>
    cases t with
    | nil => rfl
    | cons b t2 =>
      show (f a :: (b :: t2).map f).getLast? = ((a :: b :: t2).getLast?).map f
      rw [getLast_cons_of_ne_nil _ _ (by simp)]
      rw [List.getLast?_cons_cons]
      exact ih

/-- C5 (amended): _ec_text_convert restores an indentation of
stepSpace * (number of path segments) spaces for a nonempty path and
stepSpace * 1 for an empty path — i.e. stepSpace * (count of separators in
the path + 1), not stepSpace * (segments + 1) — with comment values getting
no indentation; and for a compact line with at least one path segment the
restored record is exactly the record build produces for the last line of
the uniformly step-indented document formed by the line's own segment
chain, so the match with build holds for depth >= 1 lines, not for
depth-0 lines. -/
theorem C5_encode_indent (step : Nat) (comm : List Line) (sep : Char) (l : Line) :
    (startsWithAny comm ((splitOnChar sep l).getLast?.getD []) = true →
      convertLine step comm sep l =
        (joinSep sep (splitOnChar sep l).dropLast,
          strip ((splitOnChar sep l).getLast?.getD []))) ∧
    (startsWithAny comm ((splitOnChar sep l).getLast?.getD []) = false →
      convertLine step comm sep l =
        (joinSep sep (splitOnChar sep l).dropLast,
          List.replicate (step * ((splitOnChar sep l).dropLast.length - 1 + 1)) ' ' ++
            strip ((splitOnChar sep l).getLast?.getD []))) ∧
    (∀ (segs : List Line) (v : Line),
      splitOnChar sep l = segs ++ [v] →
      1 ≤ segs.length →
      1 ≤ step →
      (∀ s ∈ segs ++ [strip v], strip s = s ∧ s ≠ []) →
      (∀ dl ∈ ladder step 0 (segs ++ [strip v]), startsWithAny comm dl = false) →
      startsWithAny comm v = false →
      (joinSep '\n' (ladder step 0 (segs ++ [strip v]))).contains '\t' = false →
      configList (joinSep '\n' (ladder step 0 (segs ++ [strip v]))) =
        ladder step 0 (segs ++ [strip v]) →
      configWithParentW (joinSep '\n' (ladder step 0 (segs ++ [strip v]))) comm =
          some (ladderRecsW step 0 [] (segs ++ [strip v])) ∧
        ((ladderRecsW step 0 [] (segs ++ [strip v])).map (projRec sep)).getLast? =
          some (convertLine step comm sep l)) := by
  have hcount : (joinSep sep (splitOnChar sep l).dropLast).count sep =
      (splitOnChar sep l).dropLast.length - 1 :=
    count_joinSep sep _ (fun s hs =>
      splitOnChar_sep_not_mem sep l s ((List.dropLast_sublist _).subset hs))
  refine ⟨fun hcm => ?_, fun hcm => ?_,
    fun segs v hsplit hd hstep hclean hcommlines hvcomm htab hcfg => ?_⟩
  · simp only [convertLine]
    rw [hcm]
    simp
  · simp only [convertLine]
    rw [hcm]
    simp only [if_neg (by simp : ¬ (false = true))]
    rw [hcount]
  · constructor
    · unfold configWithParentW
      rw [htab, if_neg (by simp : ¬ (false = true))]
      rw [hcfg]
      rw [buildLoopW_ladder (ladder step 0 (segs ++ [strip v])) comm step hstep
        (segs ++ [strip v]) 0 [] [] hclean hcommlines (by simp)]
    · rw [getLast_of_map (projRec sep) (ladderRecsW step 0 [] (segs ++ [strip v]))]
      rw [ladderRecsW_getLast step (segs ++ [strip v]) 0 [] (by simp)]
      rw [List.dropLast_concat]
      rw [List.getLast?_concat]
      simp only [Option.map_some', Option.getD_some, List.nil_append]
      have hlen : (segs ++ [strip v]).length - 1 = segs.length := by
        simp
      rw [hlen]
      simp only [projRec]
      rw [annotateFrom_map_snd step segs 0]
      simp only [convertLine]
      rw [hsplit, List.dropLast_concat, List.getLast?_concat]
      simp only [Option.getD_some]
      rw [if_neg (by rw [hvcomm]; exact Bool.false_ne_true)]
      have hsegfree : ∀ s ∈ segs, sep ∉ s := fun s hs =>
        splitOnChar_sep_not_mem sep l s (hsplit ▸ List.mem_append_left _ hs)
      rw [count_joinSep sep segs hsegfree]
      have harith : segs.length - 1 + 1 = segs.length := by omega
      rw [harith]
      have hz : 0 + segs.length = segs.length := by omega
      rw [hz]

/-- Witness applying C5 at the compact line "a,b" with step 4 (one path
segment: four spaces restored, not eight) and at the ladder document
"a\n    b" built from its own segment chain (the last built record is
exactly the restored record). -/
theorem C5_encode_indent_witness :
    convertLine 4 [] ',' ['a', ',', 'b'] = (['a'], [' ', ' ', ' ', ' ', 'b']) ∧
    configWithParentW (joinSep '\n' (ladder 4 0 ([['a']] ++ [strip ['b']]))) [] =
      some (ladderRecsW 4 0 [] ([['a']] ++ [strip ['b']])) ∧
    ((ladderRecsW 4 0 [] ([['a']] ++ [strip ['b']])).map (projRec ',')).getLast? =
      some (convertLine 4 [] ',' ['a', ',', 'b']) := by
  have h := C5_encode_indent 4 [] ',' ['a', ',', 'b']
  have h3 := h.2.2 [['a']] ['b'] (by decide) (by decide) (by decide) (by decide)
    (by decide) (by decide) (by decide) (by decide)
  exact ⟨by rw [h.2.1 (by decide)]; decide, h3.1, h3.2⟩

/-- Counterexample to C5 as stated: "a,b" has one path segment, and with
step 4 the restored indentation is 4 = 4 * 1 spaces, not
4 * (1 + 1) = 8. -/
theorem C5_counterexample :
    (convertLine 4 [] ',' ['a', ',', 'b']).2 = [' ', ' ', ' ', ' ', 'b'] ∧
    (splitOnChar ',' ['a', ',', 'b']).dropLast.length = 1 ∧
    indentWidth [' ', ' ', ' ', ' ', 'b'] ≠ 4 * (1 + 1) := by decide

/-! ### _get_between_lines (C8) -/

/-- Loop of _get_between_lines: start_index (si) records the index of the
most recent start-pattern match (0 doubles as the "no start yet" sentinel);
a line that fails the start pattern, matches the end pattern, and has a
truthy (nonzero) start_index stops the scan and returns the inclusive
slice, padded with one leading and one trailing newline. -/
def gblLoop (rm : Line → Line → Bool) (sl el : Line) (lines : List Line) :
    List Line → Nat → Nat → Line
  | [], _, _ => []
  | line :: rest, i, si =>
    if rm sl line then gblLoop rm sl el lines rest (i + 1) i
    else if si ≠ 0 ∧ rm el line = true then
      '\n' :: joinSep '\n' ((lines.drop si).take (i + 1 - si)) ++ ['\n']
    else gblLoop rm sl el lines rest (i + 1) si

/-- _get_between_lines. -/
def getBetweenLines (rm : Line → Line → Bool) (text sl el : Line) : Line :=
  gblLoop rm sl el (splitlines text) (splitlines text) 0 0

/-- A line index qualifies as the returned end index: it fails the start
pattern, matches the end pattern, and the greatest start-match index not
above e-1 is positive (a lone start match at index 0 does not count). -/
def gblQualB (rm : Line → Line → Bool) (sl el : Line) (lines : List Line) (e : Nat) : Bool :=
  !(rm sl (lines.getD e [])) && rm el (lines.getD e []) &&
    decide (0 < Nat.findGreatest (fun s => rm sl (lines.getD s []) = true) (e - 1))

theorem gblQualB_eq_true_iff (rm : Line → Line → Bool) (sl el : Line)
    (lines : List Line) (e : Nat) :
    gblQualB rm sl el lines e = true ↔
      (rm sl (lines.getD e []) = false ∧ rm el (lines.getD e []) = true ∧
        0 < Nat.findGreatest (fun s => rm sl (lines.getD s []) = true) (e - 1)) := by
  unfold gblQualB
  simp only [Bool.and_eq_true, Bool.not_eq_true', decide_eq_true_eq, and_assoc]

/-- Declarative description of _get_between_lines: at the first qualifying
end index, return the newline-padded inclusive slice starting at the
greatest positive start-match index before it; otherwise the empty
string. -/
def getBetweenSpec (rm : Line → Line → Bool) (sl el : Line) (lines : List Line) : Line :=
  match (List.range' 0 lines.length).find? (gblQualB rm sl el lines) with
  | none => []
  | some e =>
    '\n' :: joinSep '\n'
        ((lines.drop (Nat.findGreatest (fun s => rm sl (lines.getD s []) = true) (e - 1))).take
          (e + 1 - Nat.findGreatest (fun s => rm sl (lines.getD s []) = true) (e - 1))) ++
      ['\n']

theorem gblLoop_char (rm : Line → Line → Bool) (sl el : Line) (lines : List Line) :
    ∀ (rem : List Line) (i : Nat), rem = lines.drop i →
    gblLoop rm sl el lines rem i
        (Nat.findGreatest (fun s => rm sl (lines.getD s []) = true) (i - 1)) =
      (match (List.range' i (lines.length - i)).find? (gblQualB rm sl el lines) with
        | none => []
        | some e =>
          '\n' :: joinSep '\n'
              ((lines.drop
                  (Nat.findGreatest (fun s => rm sl (lines.getD s []) = true) (e - 1))).take
                (e + 1 - Nat.findGreatest (fun s => rm sl (lines.getD s []) = true) (e - 1))) ++
            ['\n']) := by
  intro rem
  induction rem with
  | nil =>
    intro i hrem
    have hlen : lines.length ≤ i := List.drop_eq_nil_iff_le.mp hrem.symm
    have : lines.length - i = 0 := by omega
    rw [this]
    rfl
  | cons line rest ih =>
    intro i hrem
    have hlt : i < lines.length := by
      by_contra hge
      rw [List.drop_eq_nil_of_le (by omega)] at hrem
      exact absurd hrem (by simp)
    have hline : lines.getD i [] = line := by
      have h0 : (lines.drop i).getD 0 [] = lines.getD (i + 0) [] := by
        simp [List.getD_eq_getElem?_getD, List.getElem?_drop]
      rw [← hrem] at h0
      simpa using h0.symm
    have hrest : rest = lines.drop (i + 1) := by
      have := congrArg List.tail hrem
      simpa [List.tail_drop] using this
    have hrange : lines.length - i = (lines.length - (i + 1)) + 1 := by omega
    rw [hrange, List.range'_succ]
    simp only [gblLoop]
    by_cases hs : rm sl line = true
    · rw [if_pos hs]
      have hfg : Nat.findGreatest (fun s => rm sl (lines.getD s []) = true) ((i + 1) - 1) = i := by
        simp only [Nat.add_sub_cancel]
        exact Nat.findGreatest_eq (by rw [hline]; exact hs)
      have hq : gblQualB rm sl el lines i = false := by
        cases hb : gblQualB rm sl el lines i with
        | false => rfl
        | true =>
          have := ((gblQualB_eq_true_iff rm sl el lines i).mp hb).1
          rw [hline, hs] at this
          exact absurd this (by simp)
      rw [List.find?_cons_of_neg _ (by simp [hq])]
      have := ih (i + 1) hrest
      rw [hfg] at this
      exact this
    · rw [if_neg hs]
      have hsfalse : rm sl line = false := by
        cases h : rm sl line with
        | false => rfl
        | true => exact absurd h hs
      have hfg : Nat.findGreatest (fun s => rm sl (lines.getD s []) = true) ((i + 1) - 1) =
          Nat.findGreatest (fun s => rm sl (lines.getD s []) = true) (i - 1) := by
        simp only [Nat.add_sub_cancel]
        cases i with
        | zero => rfl
        | succ j =>
          rw [Nat.findGreatest_of_not (by rw [hline]; simp [hsfalse])]
          rfl
      by_cases hend : Nat.findGreatest (fun s => rm sl (lines.getD s []) = true) (i - 1) ≠ 0 ∧
          rm el line = true
      · rw [if_pos hend]
        have hq : gblQualB rm sl el lines i = true :=
          (gblQualB_eq_true_iff rm sl el lines i).mpr
            ⟨by rw [hline]; exact hsfalse, by rw [hline]; exact hend.2, by omega⟩
        rw [List.find?_cons_of_pos _ hq]
      · rw [if_neg hend]
        have hq : gblQualB rm sl el lines i = false := by
          cases hb : gblQualB rm sl el lines i with
          | false => rfl
          | true =>
            obtain ⟨h1, h2, h3⟩ := (gblQualB_eq_true_iff rm sl el lines i).mp hb
            rw [hline] at h2
            exact absurd ⟨by omega, h2⟩ hend
        rw [List.find?_cons_of_neg _ (by simp [hq])]
        have := ih (i + 1) hrest
        rw [hfg] at this
        exact this

/-- C8 (amended): _get_between_lines scans lines in order keeping the most
recent start-match index, but an index-0 start match is indistinguishable
from "no start seen" (0 is the sentinel), so it never enables an end match;
at the first line that fails the start pattern, matches the end pattern,
and has a recorded positive start, it returns the inclusive slice from that
greatest positive start index to the end line, wrapped in one leading and
one trailing newline; otherwise it returns the empty string. -/
theorem C8_get_between_lines (rm : Line → Line → Bool) (text sl el : Line) :
    getBetweenLines rm text sl el = getBetweenSpec rm sl el (splitlines text) ∧
    (∀ e, gblQualB rm sl el (splitlines text) e = true ↔
      (rm sl ((splitlines text).getD e []) = false ∧
       rm el ((splitlines text).getD e []) = true ∧
       ∃ s, 0 < s ∧ s < e ∧ rm sl ((splitlines text).getD s []) = true)) := by
  constructor
  · unfold getBetweenLines getBetweenSpec
    have := gblLoop_char rm sl el (splitlines text) (splitlines text) 0 (by simp)
    simpa using this
  · intro e
    rw [gblQualB_eq_true_iff]
    constructor
    · rintro ⟨h1, h2, h3⟩
      rw [Nat.findGreatest_pos] at h3
      obtain ⟨n, hn0, hne, hp⟩ := h3
      exact ⟨h1, h2, n, hn0, by omega, hp⟩
    · rintro ⟨h1, h2, s, hs0, hse, hp⟩
      refine ⟨h1, h2, Nat.findGreatest_pos.mpr ⟨s, hs0, by omega, hp⟩⟩

/-- Witness applying C8 at "x\nS\nE" (start "S" at index 1, end "E" at
index 2): the padded inclusive slice "\nS\nE\n" is returned. -/
theorem C8_get_between_lines_witness :
    getBetweenLines prefMatch ['x', '\n', 'S', '\n', 'E'] ['S'] ['E'] =
      ['\n', 'S', '\n', 'E', '\n'] := by
  rw [(C8_get_between_lines prefMatch ['x', '\n', 'S', '\n', 'E'] ['S'] ['E']).1]
  decide

/-- Counterexample to C8 as stated: start "S" matches only line 0 and end
"E" matches line 1, a qualifying pair per the claim, yet the function
returns the empty string — an index-0 start match is lost in the 0
sentinel. -/
theorem C8_counterexample :
    getBetweenLines prefMatch ['S', '\n', 'E'] ['S'] ['E'] = [] ∧
    prefMatch ['S'] ((splitlines ['S', '\n', 'E']).getD 0 []) = true ∧
    prefMatch ['E'] ((splitlines ['S', '\n', 'E']).getD 1 []) = true := by decide

/-! ### add_after_lines / add_before_lines (C4) -/

/-- Scan of add_after_lines / add_before_lines: collect the insertion point
pf(iline) of every firing anchor window (pf j = j + N for "after", pf j = j
for "before"); without multiple_match only the first. -/
def collectPoints (rm : Line → Line → Bool) (regexMatch mult : Bool) (pf : Nat → Nat)
    (al : List PathRec) (a0 : PathRec) : List PathRec → Nat → List Nat
  | [], _ => []
  | r :: rest, i =>
    if serialFire rm regexMatch al a0 r ((r :: rest).take al.length) then
      pf i :: (if mult then collectPoints rm regexMatch mult pf al a0 rest (i + 1) else [])
    else collectPoints rm regexMatch mult pf al a0 rest (i + 1)

/-- Python slice-insert self.cwp[p:p] = xs (past-the-end appends). -/
def insertAt (p : Nat) (xs l : List PathRec) : List PathRec :=
  l.take p ++ xs ++ l.drop p

/-- Application loop of the add operations: the running offset grows by the
added block's length after each insertion. -/
def applyInserts (addl : List PathRec) : List PathRec → List Nat → Nat → List PathRec
  | cwp, [], _ => cwp
  | cwp, p :: ps, off => applyInserts addl (insertAt (p + off) addl cwp) ps (off + addl.length)

/-- Declarative interleaving: each block sits right at its own (pre-edit)
insertion point, with earlier segments untouched; base is the count of
already-consumed records of the original sequence. -/
def interleaveFrom (addl : List PathRec) : List Nat → Nat → List PathRec → List PathRec
  | [], _, cur => cur
  | p :: ps, base, cur =>
    cur.take (p - base) ++ addl ++ interleaveFrom addl ps p (cur.drop (p - base))

/-- add_after_lines: none models the IndexError raised when the parsed
anchor block is empty while the sequence is not. -/
def addAfterLines (rm : Line → Line → Bool) (step : Nat) (comm : List Line) (sep : Char)
    (addText afterText : Line) (regexMatch mult : Bool) (cwp : List PathRec) :
    Option (List PathRec) :=
  match ecTextConvert afterText step comm sep with
  | [] => if cwp.isEmpty then some cwp else none
  | a0 :: atail =>
    some (applyInserts (ecTextConvert addText step comm sep) cwp
      (collectPoints rm regexMatch mult (fun j => j + (a0 :: atail).length)
        (a0 :: atail) a0 cwp 0) 0)

/-- add_before_lines: same scan with the window-start index as the
insertion point. -/
def addBeforeLines (rm : Line → Line → Bool) (step : Nat) (comm : List Line) (sep : Char)
    (addText beforeText : Line) (regexMatch mult : Bool) (cwp : List PathRec) :
    Option (List PathRec) :=
  match ecTextConvert beforeText step comm sep with
  | [] => if cwp.isEmpty then some cwp else none
  | a0 :: atail =>
    some (applyInserts (ecTextConvert addText step comm sep) cwp
      (collectPoints rm regexMatch mult (fun j => j) (a0 :: atail) a0 cwp 0) 0)

theorem collectPoints_bound (rm : Line → Line → Bool) (rgx mult : Bool) (pf : Nat → Nat)
    (al : List PathRec) (a0 : PathRec) (hmono : ∀ j k, j ≤ k → pf j ≤ pf k) :
    ∀ (rem : List PathRec) (i : Nat) (p : Nat),
    p ∈ collectPoints rm rgx mult pf al a0 rem i → pf i ≤ p := by
  intro rem
  induction rem with
  | nil => intro i p hp; simp [collectPoints] at hp
  | cons r rest ih =>
    intro i p hp
    simp only [collectPoints] at hp
    by_cases hf : serialFire rm rgx al a0 r ((r :: rest).take al.length) = true
    · rw [if_pos hf] at hp
      rcases List.mem_cons.mp hp with h | h
      · exact h ▸ Nat.le_refl _
      · by_cases hm : mult
        · rw [if_pos hm] at h
          exact Nat.le_trans (hmono i (i + 1) (by omega)) (ih (i + 1) p h)
        · rw [if_neg hm] at h
          simp at h
    · rw [if_neg hf] at hp
      exact Nat.le_trans (hmono i (i + 1) (by omega)) (ih (i + 1) p hp)

theorem collectPoints_pairwise (rm : Line → Line → Bool) (rgx mult : Bool) (pf : Nat → Nat)
    (al : List PathRec) (a0 : PathRec) (hmono : ∀ j k, j < k → pf j < pf k) :
    ∀ (rem : List PathRec) (i : Nat),
    List.Pairwise (· < ·) (collectPoints rm rgx mult pf al a0 rem i) := by
  intro rem
  induction rem with
  | nil => intro i; simp [collectPoints]
  | cons r rest ih =>
    intro i
    simp only [collectPoints]
    by_cases hf : serialFire rm rgx al a0 r ((r :: rest).take al.length) = true
    · rw [if_pos hf]
      by_cases hm : mult
      · rw [if_pos hm, List.pairwise_cons]
        refine ⟨fun p hp => ?_, ih (i + 1)⟩
        have hb := collectPoints_bound rm rgx mult pf al a0
          (fun j k hjk => by
            rcases Nat.lt_or_ge j k with h | h
            · exact Nat.le_of_lt (hmono j k h)
            · have : j = k := by omega
              exact this ▸ Nat.le_refl _)
          rest (i + 1) p hp
        exact Nat.lt_of_lt_of_le (hmono i (i + 1) (by omega)) hb
      · rw [if_neg hm]
        simp
    · rw [if_neg hf]
      exact ih (i + 1)

theorem applyInserts_past_end (addl : List PathRec) :
    ∀ (ps : List Nat) (pre : List PathRec) (off base : Nat),
      (∀ q ∈ ps, pre.length ≤ q + off) →
      applyInserts addl pre ps off = pre ++ interleaveFrom addl ps base [] := by
  intro ps
  induction ps with
  | nil => intro pre off base _; simp [applyInserts, interleaveFrom]
  | cons p ps ih =>
    intro pre off base hq
    simp only [applyInserts, interleaveFrom]
    have hp := hq p (by simp)
    have hins : insertAt (p + off) addl pre = pre ++ addl := by
      unfold insertAt
      rw [List.take_of_length_le (by omega), List.drop_eq_nil_of_le (by omega)]
      simp
    rw [hins, ih (pre ++ addl) (off + addl.length) p (by
      intro q hq'
      have := hq q (List.mem_cons_of_mem p hq')
      simp only [List.length_append]
      omega)]
    simp [List.append_assoc]

theorem applyInserts_eq_interleaveFrom_aux (addl : List PathRec) :
    ∀ (ps : List Nat) (pre cur : List PathRec) (off base : Nat),
      off + base = pre.length →
      (∀ p ∈ ps, base ≤ p) →
      List.Pairwise (· ≤ ·) ps →
      applyInserts addl (pre ++ cur) ps off = pre ++ interleaveFrom addl ps base cur := by
  intro ps
  induction ps with
  | nil => intro pre cur off base _ _ _; simp [applyInserts, interleaveFrom]
  | cons p ps ih =>
    intro pre cur off base hoff hbase hsort
    have hbp : base ≤ p := hbase p (by simp)
    simp only [applyInserts, interleaveFrom]
    by_cases hcase : p - base ≤ cur.length
    · have hins : insertAt (p + off) addl (pre ++ cur) =
          (pre ++ (cur.take (p - base) ++ addl)) ++ cur.drop (p - base) := by
        unfold insertAt
        have hpe : p + off = pre.length + (p - base) := by omega
        rw [hpe, List.take_append (p - base), List.drop_append (p - base)]
        simp [List.append_assoc]
      rw [hins, ih (pre ++ (cur.take (p - base) ++ addl)) (cur.drop (p - base))
        (off + addl.length) p
        (by simp only [List.length_append, List.length_take]; omega)
        (fun q hq => (List.pairwise_cons.mp hsort).1 q hq)
        (List.pairwise_cons.mp hsort).2]
      simp [List.append_assoc]
    · have hins : insertAt (p + off) addl (pre ++ cur) = (pre ++ cur) ++ addl := by
        unfold insertAt
        rw [List.take_of_length_le (by simp only [List.length_append]; omega),
          List.drop_eq_nil_of_le (by simp only [List.length_append]; omega)]
        simp
      rw [hins, applyInserts_past_end addl ps ((pre ++ cur) ++ addl)
        (off + addl.length) p (by
          intro q hq
          have hpq : p ≤ q := (List.pairwise_cons.mp hsort).1 q hq
          simp only [List.length_append]
          omega)]
      have ht : cur.take (p - base) = cur := List.take_of_length_le (by omega)
      have hd : cur.drop (p - base) = [] := List.drop_eq_nil_of_le (by omega)
      rw [ht, hd]
      simp [List.append_assoc]

theorem applyInserts_eq_interleaveFrom (addl cwp : List PathRec) (ps : List Nat)
    (hsort : List.Pairwise (· ≤ ·) ps) :
    applyInserts addl cwp ps 0 = interleaveFrom addl ps 0 cwp := by
  have := applyInserts_eq_interleaveFrom_aux addl ps [] cwp 0 0 rfl (by simp) hsort
  simpa using this

theorem interleaveFrom_block_pos (addl : List PathRec) :
    ∀ (ps : List Nat) (base : Nat) (cur : List PathRec) (k p : Nat),
      List.Pairwise (· ≤ ·) ps → (∀ q ∈ ps, base ≤ q) →
      ps.getD k 0 = p → k < ps.length →
      ((interleaveFrom addl ps base cur).drop (min (p - base) cur.length +
          k * addl.length)).take addl.length = addl := by
  intro ps
  induction ps with
  | nil => intro base cur k p _ _ _ hk; simp at hk
  | cons q ps ih =>
    intro base cur k p hsort hbase hget hk
    simp only [interleaveFrom]
    cases k with
    | zero =>
      simp only [List.getD_cons_zero] at hget
      subst hget
      have hpre : min (q - base) cur.length + 0 * addl.length =
          (cur.take (q - base)).length := by
        simp [List.length_take]
      rw [List.append_assoc, hpre, List.drop_left, List.take_left]
    | succ k =>
      simp only [List.getD_cons_succ] at hget
      have hklen : k < ps.length := by simpa using Nat.lt_of_succ_lt_succ hk
      have hqp : q ≤ p := by
        have hmem : ps.getD k 0 ∈ ps := by
          rw [List.getD_eq_getElem?_getD, List.getElem?_eq_getElem hklen]
          exact List.getElem_mem hklen
        rw [hget] at hmem
        exact (List.pairwise_cons.mp hsort).1 p hmem
      have hbq : base ≤ q := hbase q (by simp)
      have hih := ih q (cur.drop (q - base)) k p (List.pairwise_cons.mp hsort).2
        (fun r hr => (List.pairwise_cons.mp hsort).1 r hr) hget hklen
      have harith : min (p - base) cur.length + (k + 1) * addl.length =
          (cur.take (q - base) ++ addl).length +
            (min (p - q) (cur.drop (q - base)).length + k * addl.length) := by
        simp only [List.length_append, List.length_take, List.length_drop,
          Nat.add_mul, Nat.one_mul]
        omega
      rw [List.append_assoc, ← List.append_assoc (cur.take (q - base)) addl, harith,
        List.drop_append]
      exact hih

/-- C4: the add operations collect all anchor insertion points in pre-edit
index space in strictly increasing order and apply them left-to-right with
a running offset; the result is exactly the interleaving that drops each
added block at its own pre-edit point, and block k occupies positions
[min(p_k, len) + k*L, min(p_k, len) + (k+1)*L) of the final sequence —
immediately after (addAfter: p_k = window start + N) respectively before
(addBefore: p_k = window start) its matched window — so no insertion
shifts an earlier, already-consumed insertion point. -/
theorem C4_insertion_offsets (rm : Line → Line → Bool) (rgx mult : Bool)
    (pf : Nat → Nat) (hpf : ∀ j k, j < k → pf j < pf k)
    (addl : List PathRec) (a0 : PathRec) (atail : List PathRec) (cwp : List PathRec) :
    List.Pairwise (· < ·) (collectPoints rm rgx mult pf (a0 :: atail) a0 cwp 0) ∧
    applyInserts addl cwp (collectPoints rm rgx mult pf (a0 :: atail) a0 cwp 0) 0 =
      interleaveFrom addl (collectPoints rm rgx mult pf (a0 :: atail) a0 cwp 0) 0 cwp ∧
    (∀ k p, (collectPoints rm rgx mult pf (a0 :: atail) a0 cwp 0).getD k 0 = p →
      k < (collectPoints rm rgx mult pf (a0 :: atail) a0 cwp 0).length →
      ((applyInserts addl cwp (collectPoints rm rgx mult pf (a0 :: atail) a0 cwp 0)
          0).drop (min p cwp.length + k * addl.length)).take addl.length = addl) ∧
    (∀ (step : Nat) (comm : List Line) (sep : Char) (addText anchorText : Line),
      ecTextConvert anchorText step comm sep = a0 :: atail →
      ecTextConvert addText step comm sep = addl →
      addAfterLines rm step comm sep addText anchorText rgx mult cwp =
        some (interleaveFrom addl (collectPoints rm rgx mult
          (fun j => j + (a0 :: atail).length) (a0 :: atail) a0 cwp 0) 0 cwp) ∧
      addBeforeLines rm step comm sep addText anchorText rgx mult cwp =
        some (interleaveFrom addl (collectPoints rm rgx mult
          (fun j => j) (a0 :: atail) a0 cwp 0) 0 cwp)) := by
  have hpw := collectPoints_pairwise rm rgx mult pf (a0 :: atail) a0 hpf cwp 0
  have hle : List.Pairwise (· ≤ ·)
      (collectPoints rm rgx mult pf (a0 :: atail) a0 cwp 0) :=
    hpw.imp (fun h => Nat.le_of_lt h)
  have heq := applyInserts_eq_interleaveFrom addl cwp
    (collectPoints rm rgx mult pf (a0 :: atail) a0 cwp 0) hle
  refine ⟨hpw, heq, fun k p hget hk => ?_, fun step comm sep addText anchorText h1 h2 => ?_⟩
  · rw [heq]
    have := interleaveFrom_block_pos addl
      (collectPoints rm rgx mult pf (a0 :: atail) a0 cwp 0) 0 cwp k p hle
      (by simp) hget hk
    simpa using this
  · constructor
    · unfold addAfterLines
      rw [h1, h2]
      show some (applyInserts addl cwp (collectPoints rm rgx mult
        (fun j => j + (a0 :: atail).length) (a0 :: atail) a0 cwp 0) 0) = _
      rw [applyInserts_eq_interleaveFrom addl cwp _
        ((collectPoints_pairwise rm rgx mult (fun j => j + (a0 :: atail).length)
          (a0 :: atail) a0
          (fun j k h => show j + (a0 :: atail).length < k + (a0 :: atail).length by omega)
          cwp 0).imp
          (fun h => Nat.le_of_lt h))]
    · unfold addBeforeLines
      rw [h1, h2]
      show some (applyInserts addl cwp (collectPoints rm rgx mult
        (fun j => j) (a0 :: atail) a0 cwp 0) 0) = _
      rw [applyInserts_eq_interleaveFrom addl cwp _
        ((collectPoints_pairwise rm rgx mult (fun j => j)
          (a0 :: atail) a0 (fun j k h => h) cwp 0).imp
          (fun h => Nat.le_of_lt h))]

/-- Witness applying C4 at a concrete input: two anchor matches "a" at
positions 0 and 2; inserting "n" after each lands the blocks at positions
1 and 4 of the final five-record sequence. -/
theorem C4_insertion_offsets_witness :
    addAfterLines prefMatch 1 [] ',' ['n'] ['a'] false true
        [([], [' ', 'a']), ([], [' ', 'b']), ([], [' ', 'a'])] =
      some [([], [' ', 'a']), ([], [' ', 'n']), ([], [' ', 'b']), ([], [' ', 'a']),
        ([], [' ', 'n'])] := by
  have h := (C4_insertion_offsets prefMatch false true (fun j => j + 1)
    (fun j k hjk => show j + 1 < k + 1 by omega) [([], [' ', 'n'])] ([], [' ', 'a'])
    [] [([], [' ', 'a']), ([], [' ', 'b']), ([], [' ', 'a'])]).2.2.2
    1 [] ',' ['n'] ['a'] (by decide) (by decide)
  rw [h.1]
  decide

/-! ### Remaining SequenceEditor operations (C3, C10) -/

/-- cwp_update: re-linearize the current values and rebuild every path (may
fail if a value contains a tab). -/
def cwpUpdate (comm : List Line) (sep : Char) (cwp : List PathRec) : Option (List PathRec) :=
  configWithParent (cwpToText cwp) comm sep

/-- One pass of the regex branch of delete_between_lines /
replace_between_lines: start_line is set at most once (first match wins),
and the end test runs in the same iteration, so one line can serve as both
boundaries. -/
def dbFindPass (rm : Line → Line → Bool) (sw ew : PathRec) :
    List PathRec → Nat → Option Nat → Option (Nat × Nat)
  | [], _, _ => none
  | r :: rest, i, sl =>
    let sl2 := if sl.isNone && rm sw.1 r.1 && rm sw.2 r.2 then some i else sl
    match sl2 with
    | some s =>
      if rm ew.1 r.1 && rm ew.2 r.2 then some (s, i)
      else dbFindPass rm sw ew rest (i + 1) (some s)
    | none => dbFindPass rm sw ew rest (i + 1) none

theorem dbFindPass_bounds (rm : Line → Line → Bool) (sw ew : PathRec) :
    ∀ (rem : List PathRec) (i : Nat) (sl : Option Nat) (s e : Nat),
    (∀ s0, sl = some s0 → s0 ≤ i) →
    dbFindPass rm sw ew rem i sl = some (s, e) →
    s ≤ e ∧ i ≤ e ∧ e < i + rem.length := by
  intro rem
  induction rem with
  | nil => intro i sl s e _ h; simp [dbFindPass] at h
  | cons r rest ih =>
    intro i sl s e hsl h
    simp only [dbFindPass] at h
    split at h
    · rename_i s0 heq
      have hs0 : s0 ≤ i := by
        by_cases hc : (sl.isNone && rm sw.1 r.1 && rm sw.2 r.2) = true
        · rw [if_pos hc] at heq
          cases heq
          exact Nat.le_refl _
        · rw [if_neg hc] at heq
          exact hsl s0 heq
      split at h
      · cases h
        simp only [List.length_cons]
        omega
      · have := ih (i + 1) (some s0) s e (by intro s1 h1; cases h1; omega) h
        simp only [List.length_cons]
        omega
    · have := ih (i + 1) none s e (by intro s0 h0; simp at h0) h
      simp only [List.length_cons]
      omega

/-- While-loop of the regex branch of delete_between_lines. -/
def deleteBetweenRegexLoop (rm : Line → Line → Bool) (mult : Bool) (sw ew : PathRec)
    (cwp : List PathRec) : List PathRec :=
  match h : dbFindPass rm sw ew cwp 0 none with
  | none => cwp
  | some (s, e) =>
    if mult then deleteBetweenRegexLoop rm mult sw ew (cwp.take s ++ cwp.drop (e + 1))
    else cwp.take s ++ cwp.drop (e + 1)
termination_by cwp.length
decreasing_by
  have := dbFindPass_bounds rm sw ew cwp 0 none s e (by intro s0 h0; simp at h0) h
  simp only [List.length_append, List.length_take, List.length_drop]
  omega

theorem indexOf_lt_length_of_mem {a : PathRec} {l : List PathRec} (h : a ∈ l) :
    List.indexOf a l < l.length := by
  unfold List.indexOf
  exact List.findIdx_lt_length_of_exists ⟨a, h, by simp⟩

/-- While-loop of the literal branch of delete_between_lines: none models
the ValueError raised by list.index when the start record is present but no
end record follows it. -/
def deleteBetweenLitLoop (mult : Bool) (sw ew : PathRec) (cwp : List PathRec) :
    Option (List PathRec) :=
  if hmem : sw ∈ cwp then
    if ew ∈ cwp.drop (List.indexOf sw cwp) then
      if mult then
        deleteBetweenLitLoop mult sw ew
          (cwp.take (List.indexOf sw cwp) ++
            cwp.drop (List.indexOf sw cwp + List.indexOf ew (cwp.drop (List.indexOf sw cwp)) + 1))
      else
        some (cwp.take (List.indexOf sw cwp) ++
          cwp.drop (List.indexOf sw cwp + List.indexOf ew (cwp.drop (List.indexOf sw cwp)) + 1))
    else none
  else some cwp
termination_by cwp.length
decreasing_by
  have hfi : List.indexOf sw cwp < cwp.length := indexOf_lt_length_of_mem hmem
  simp only [List.length_append, List.length_take, List.length_drop]
  omega

/-- delete_between_lines: converts both boundary lines (none models the
IndexError on an empty parse) and dispatches on regex_match. -/
def deleteBetweenLines (rm : Line → Line → Bool) (step : Nat) (comm : List Line) (sep : Char)
    (startText endText : Line) (regexMatch mult : Bool) (cwp : List PathRec) :
    Option (List PathRec) :=
  match ecTextConvert startText step comm sep, ecTextConvert endText step comm sep with
  | sw :: _, ew :: _ =>
    if regexMatch then some (deleteBetweenRegexLoop rm mult sw ew cwp)
    else deleteBetweenLitLoop mult sw ew cwp
  | _, _ => none

/-- Collection scan of replace_line (non-backreference): the literal check
runs unconditionally after the regex-gated check in the same iteration, so
one record can be collected twice under multiple_match. -/
def collectReplaceIdx (rm : Line → Line → Bool) (regexMatch mult : Bool) (old : PathRec) :
    List PathRec → Nat → List Nat
  | [], _ => []
  | r :: rest, i =>
    if (regexMatch && rm old.1 r.1 && rm old.2 r.2) && !mult then [i]
    else
      (if regexMatch && rm old.1 r.1 && rm old.2 r.2 then [i] else []) ++
        (if r == old then
          (if !mult then [i]
           else i :: collectReplaceIdx rm regexMatch mult old rest (i + 1))
         else collectReplaceIdx rm regexMatch mult old rest (i + 1))

/-- Replacement application of replace_line: whole-record overwrite when
replace_path, value-only overwrite otherwise. -/
def applyReplace (newRec : PathRec) (replacePath : Bool) (cwp : List PathRec)
    (idxs : List Nat) : List PathRec :=
  idxs.foldl (fun c n =>
    if replacePath then c.set n newRec
    else List.modify (fun r => (r.1, newRec.2)) n c) cwp

/-- Backreference branch of replace_line: re.sub applied independently to
path and value of each matching record (in place; scan stops after the
first hit without multiple_match). -/
def replaceBackref (rm : Line → Line → Bool) (rsub : Line → Line → Line → Line)
    (mult : Bool) (old new : PathRec) : List PathRec → List PathRec
  | [] => []
  | r :: rest =>
    if rm old.1 r.1 && rm old.2 r.2 then
      (rsub old.1 new.1 r.1, rsub old.2 new.2 r.2) ::
        (if mult then replaceBackref rm rsub mult old new rest else rest)
    else r :: replaceBackref rm rsub mult old new rest

/-- replace_line. -/
def replaceLine (rm : Line → Line → Bool) (rsub : Line → Line → Line → Line)
    (step : Nat) (comm : List Line) (sep : Char) (oldText newText : Line)
    (regexMatch mult regexBackref replacePath : Bool) (cwp : List PathRec) :
    Option (List PathRec) :=
  match ecTextConvert oldText step comm sep, ecTextConvert newText step comm sep with
  | old :: _, new :: _ =>
    if regexBackref then some (replaceBackref rm rsub mult old new cwp)
    else some (applyReplace new replacePath cwp
      (collectReplaceIdx rm regexMatch mult old cwp 0))
  | _, _ => none

/-- While-loop of replace_serial_lines: the replacement block is spliced in
at the window position; the loop can diverge in the source when the
replacement still matches, so fuel bounds the number of iterations
explicitly. -/
def replaceSerialLoop (rm : Line → Line → Bool) (regexMatch mult : Bool)
    (d0 : PathRec) (dtail repl : List PathRec) : Nat → List PathRec → Option (List PathRec)
  | 0, _ => none
  | fuel + 1, cwp =>
    match findHit rm regexMatch (d0 :: dtail) d0 cwp with
    | none => some cwp
    | some i =>
      if mult then
        replaceSerialLoop rm regexMatch mult d0 dtail repl fuel
          (cwp.take i ++ repl ++ cwp.drop (i + (dtail.length + 1)))
      else some (cwp.take i ++ repl ++ cwp.drop (i + (dtail.length + 1)))

/-- replace_serial_lines: after the loop, regex mode triggers a full
reparse via cwp_update. -/
def replaceSerialLines (rm : Line → Line → Bool) (step : Nat) (comm : List Line) (sep : Char)
    (oldText newText : Line) (regexMatch mult : Bool) (fuel : Nat) (cwp : List PathRec) :
    Option (List PathRec) :=
  match ecTextConvert oldText step comm sep with
  | [] =>
    if cwp.isEmpty then (if regexMatch then cwpUpdate comm sep cwp else some cwp) else none
  | d0 :: dtail =>
    match replaceSerialLoop rm regexMatch mult d0 dtail
        (ecTextConvert newText step comm sep) fuel cwp with
    | none => none
    | some cwp2 => if regexMatch then cwpUpdate comm sep cwp2 else some cwp2

/-- While-loop of the regex branch of replace_between_lines (fuel bounds
the possibly divergent source loop). -/
def replaceBetweenRegexLoop (rm : Line → Line → Bool) (mult : Bool) (sw ew : PathRec)
    (repl : List PathRec) : Nat → List PathRec → Option (List PathRec)
  | 0, _ => none
  | fuel + 1, cwp =>
    match dbFindPass rm sw ew cwp 0 none with
    | none => some cwp
    | some (s, e) =>
      if mult then
        replaceBetweenRegexLoop rm mult sw ew repl fuel
          (cwp.take s ++ repl ++ cwp.drop (e + 1))
      else some (cwp.take s ++ repl ++ cwp.drop (e + 1))

/-- While-loop of the literal branch of replace_between_lines: none models
both the ValueError of list.index (missing end) and fuel exhaustion. -/
def replaceBetweenLitLoop (mult : Bool) (sw ew : PathRec) (repl : List PathRec) :
    Nat → List PathRec → Option (List PathRec)
  | 0, _ => none
  | fuel + 1, cwp =>
    if sw ∈ cwp then
      if ew ∈ cwp.drop (List.indexOf sw cwp) then
        if mult then
          replaceBetweenLitLoop mult sw ew repl fuel
            (cwp.take (List.indexOf sw cwp) ++ repl ++
              cwp.drop (List.indexOf sw cwp +
                List.indexOf ew (cwp.drop (List.indexOf sw cwp)) + 1))
        else
          some (cwp.take (List.indexOf sw cwp) ++ repl ++
            cwp.drop (List.indexOf sw cwp +
              List.indexOf ew (cwp.drop (List.indexOf sw cwp)) + 1))
      else none
    else some cwp

/-- replace_between_lines: boundary conversion, branch dispatch and, in
regex mode, the final reparse. -/
def replaceBetweenLines (rm : Line → Line → Bool) (step : Nat) (comm : List Line) (sep : Char)
    (startText endText newText : Line) (regexMatch mult : Bool) (fuel : Nat)
    (cwp : List PathRec) : Option (List PathRec) :=
  match ecTextConvert startText step comm sep, ecTextConvert endText step comm sep with
  | sw :: _, ew :: _ =>
    match (if regexMatch then
        replaceBetweenRegexLoop rm mult sw ew (ecTextConvert newText step comm sep) fuel cwp
      else replaceBetweenLitLoop mult sw ew (ecTextConvert newText step comm sep) fuel cwp) with
    | none => none
    | some cwp2 => if regexMatch then cwpUpdate comm sep cwp2 else some cwp2
  | _, _ => none

/-- cwp_search as a state transformer: the method only reads the owned
sequence and returns fresh [path, lstripped value] pairs. -/
def cwpSearchM (rm : Line → Line → Bool) (regex : Bool) (path value : Line)
    (cwp : List PathRec) : List PathRec × List PathRec :=
  ((cwp.filter (fun r =>
      (if regex then rm path r.1 else path.isPrefixOf r.1) &&
        (if regex then rm value (lstrip r.2) else (lstrip value).isPrefixOf (lstrip r.2)))).map
    (fun r => (r.1, lstrip r.2)), cwp)

/-- cwp_search_capture as a state transformer: records where both patterns
match contribute their concatenated capture groups, empty group lists
omitted. -/
def cwpSearchCaptureM (rgroups : Line → Line → Option (List Line)) (path value : Line)
    (cwp : List PathRec) : List (List Line) × List PathRec :=
  (cwp.filterMap (fun r =>
      match rgroups path r.1, rgroups value (lstrip r.2) with
      | some g1, some g2 => if (g1 ++ g2).isEmpty then none else some (g1 ++ g2)
      | _, _ => none), cwp)

/-- cwp_serial_check as a state transformer. -/
def cwpSerialCheckM (rm : Line → Line → Bool) (sep : Char) (patText : Line)
    (cwp : List PathRec) : Option Bool × List PathRec :=
  (cwpSerialCheck rm sep patText cwp, cwp)

/-! ### No-match behavior of the locate-based operations (C3) -/

theorem deleteBetweenRegexLoop_none (rm : Line → Line → Bool) (mult : Bool)
    (sw ew : PathRec) (cwp : List PathRec)
    (h : dbFindPass rm sw ew cwp 0 none = none) :
    deleteBetweenRegexLoop rm mult sw ew cwp = cwp := by
  unfold deleteBetweenRegexLoop
  split
  · rfl
  · rename_i s e heq
    rw [h] at heq
    exact absurd heq (by simp)

theorem deleteBetweenLitLoop_not_mem (mult : Bool) (sw ew : PathRec) (cwp : List PathRec)
    (h : sw ∉ cwp) : deleteBetweenLitLoop mult sw ew cwp = some cwp := by
  unfold deleteBetweenLitLoop
  rw [dif_neg h]

theorem deleteBetweenLitLoop_no_end (mult : Bool) (sw ew : PathRec) (cwp : List PathRec)
    (hmem : sw ∈ cwp) (hend : ew ∉ cwp.drop (List.indexOf sw cwp)) :
    deleteBetweenLitLoop mult sw ew cwp = none := by
  unfold deleteBetweenLitLoop
  rw [dif_pos hmem, if_neg hend]

theorem collectPoints_nil_of_findHit_none (rm : Line → Line → Bool) (rgx mult : Bool)
    (pf : Nat → Nat) (al : List PathRec) (a0 : PathRec) :
    ∀ (rem : List PathRec) (i : Nat),
    findHit rm rgx al a0 rem = none →
    collectPoints rm rgx mult pf al a0 rem i = [] := by
  intro rem
  induction rem with
  | nil => intro i _; rfl
  | cons r rest ih =>
    intro i h
    simp only [findHit] at h
    simp only [collectPoints]
    by_cases hf : serialFire rm rgx al a0 r ((r :: rest).take al.length) = true
    · rw [if_pos hf] at h
      exact absurd h (by simp)
    · rw [if_neg hf] at h
      rw [if_neg hf]
      exact ih (i + 1) (by simpa using h)

theorem replaceBackref_no_match (rm : Line → Line → Bool)
    (rsub : Line → Line → Line → Line) (mult : Bool) (old new : PathRec) :
    ∀ (cwp : List PathRec),
    (∀ r ∈ cwp, ¬(rm old.1 r.1 = true ∧ rm old.2 r.2 = true)) →
    replaceBackref rm rsub mult old new cwp = cwp := by
  intro cwp
  induction cwp with
  | nil => intro _; rfl
  | cons r rest ih =>
    intro h
    simp only [replaceBackref]
    have hr : (rm old.1 r.1 && rm old.2 r.2) = false := by
      cases hb : (rm old.1 r.1 && rm old.2 r.2) with
      | false => rfl
      | true => exact absurd ((Bool.and_eq_true _ _).mp hb) (h r (by simp))
    rw [hr]
    simp only [Bool.false_eq_true, if_false]
    rw [ih (fun x hx => h x (List.mem_cons_of_mem r hx))]

/-- C3 (amended): a locate-based operation that finds no qualifying window
or record returns normally with the sequence unchanged, with two
exceptions the code imposes: (1) delete_between_lines and
replace_between_lines in literal mode raise (ValueError of list.index)
when the start record is present but no end record occurs at or after it —
only a missing start is a silent no-op; (2) replace_serial_lines and
replace_between_lines in regex mode still run the final reparse
(cwp_update), so their sequence is unchanged only up to reparse. -/
theorem C3_no_match_no_op (rm : Line → Line → Bool) (rsub : Line → Line → Line → Line)
    (step : Nat) (comm : List Line) (sep : Char) (cwp : List PathRec) :
    (∀ (delText : Line) (rgx mult : Bool) (d0 : PathRec) (dtail : List PathRec),
      ecTextConvert delText step comm sep = d0 :: dtail →
      findHit rm rgx (d0 :: dtail) d0 cwp = none →
      deleteSerialLines rm step comm sep delText rgx mult cwp = some cwp) ∧
    (∀ (startText endText : Line) (mult : Bool) (sw ew : PathRec) (st et : List PathRec),
      ecTextConvert startText step comm sep = sw :: st →
      ecTextConvert endText step comm sep = ew :: et →
      dbFindPass rm sw ew cwp 0 none = none →
      deleteBetweenLines rm step comm sep startText endText true mult cwp = some cwp) ∧
    (∀ (startText endText : Line) (mult : Bool) (sw ew : PathRec) (st et : List PathRec),
      ecTextConvert startText step comm sep = sw :: st →
      ecTextConvert endText step comm sep = ew :: et →
      (sw ∉ cwp →
        deleteBetweenLines rm step comm sep startText endText false mult cwp = some cwp) ∧
      (sw ∈ cwp → ew ∉ cwp.drop (List.indexOf sw cwp) →
        deleteBetweenLines rm step comm sep startText endText false mult cwp = none)) ∧
    (∀ (addText anchorText : Line) (rgx mult : Bool) (a0 : PathRec) (atail : List PathRec),
      ecTextConvert anchorText step comm sep = a0 :: atail →
      findHit rm rgx (a0 :: atail) a0 cwp = none →
      addAfterLines rm step comm sep addText anchorText rgx mult cwp = some cwp ∧
      addBeforeLines rm step comm sep addText anchorText rgx mult cwp = some cwp) ∧
    (∀ (oldText newText : Line) (rgx mult replacePath : Bool) (old new : PathRec)
        (ot nt : List PathRec),
      ecTextConvert oldText step comm sep = old :: ot →
      ecTextConvert newText step comm sep = new :: nt →
      collectReplaceIdx rm rgx mult old cwp 0 = [] →
      replaceLine rm rsub step comm sep oldText newText rgx mult false replacePath cwp =
        some cwp) ∧
    (∀ (oldText newText : Line) (rgx mult replacePath : Bool) (old new : PathRec)
        (ot nt : List PathRec),
      ecTextConvert oldText step comm sep = old :: ot →
      ecTextConvert newText step comm sep = new :: nt →
      (∀ r ∈ cwp, ¬(rm old.1 r.1 = true ∧ rm old.2 r.2 = true)) →
      replaceLine rm rsub step comm sep oldText newText rgx mult true replacePath cwp =
        some cwp) ∧
    (∀ (oldText newText : Line) (rgx mult : Bool) (fuel : Nat) (d0 : PathRec)
        (dtail : List PathRec),
      ecTextConvert oldText step comm sep = d0 :: dtail →
      findHit rm rgx (d0 :: dtail) d0 cwp = none → 0 < fuel →
      replaceSerialLines rm step comm sep oldText newText rgx mult fuel cwp =
        (if rgx then cwpUpdate comm sep cwp else some cwp)) ∧
    (∀ (startText endText newText : Line) (mult : Bool) (fuel : Nat) (sw ew : PathRec)
        (st et : List PathRec),
      ecTextConvert startText step comm sep = sw :: st →
      ecTextConvert endText step comm sep = ew :: et → 0 < fuel →
      (dbFindPass rm sw ew cwp 0 none = none →
        replaceBetweenLines rm step comm sep startText endText newText true mult fuel cwp =
          cwpUpdate comm sep cwp) ∧
      (sw ∉ cwp →
        replaceBetweenLines rm step comm sep startText endText newText false mult fuel cwp =
          some cwp) ∧
      (sw ∈ cwp → ew ∉ cwp.drop (List.indexOf sw cwp) →
        replaceBetweenLines rm step comm sep startText endText newText false mult fuel cwp =
          none)) := by
  refine ⟨?_, ?_, ?_, ?_, ?_, ?_, ?_, ?_⟩
  · intro delText rgx mult d0 dtail hconv hfind
    unfold deleteSerialLines
    split
    · rename_i heq
      rw [hconv] at heq
      exact absurd heq (by simp)
    · rename_i d0' dtail' heq
      rw [hconv] at heq
      cases heq
      rw [deleteSerialLoop_none rm rgx mult d0 dtail cwp hfind]
  · intro startText endText mult sw ew st et h1 h2 hfind
    unfold deleteBetweenLines
    split
    · rename_i sw' _ ew' _ heq1 heq2
      rw [h1] at heq1
      rw [h2] at heq2
      cases heq1
      cases heq2
      rw [if_pos rfl, deleteBetweenRegexLoop_none rm mult sw ew cwp hfind]
    · rename_i hno
      exact (hno sw st ew et h1 h2).elim
  · intro startText endText mult sw ew st et h1 h2
    constructor
    · intro hmem
      unfold deleteBetweenLines
      split
      · rename_i sw' _ ew' _ heq1 heq2
        rw [h1] at heq1
        rw [h2] at heq2
        cases heq1
        cases heq2
        rw [if_neg (by simp)]
        exact deleteBetweenLitLoop_not_mem mult sw ew cwp hmem
      · rename_i hno
        exact (hno sw st ew et h1 h2).elim
    · intro hmem hend
      unfold deleteBetweenLines
      split
      · rename_i sw' _ ew' _ heq1 heq2
        rw [h1] at heq1
        rw [h2] at heq2
        cases heq1
        cases heq2
        rw [if_neg (by simp)]
        exact deleteBetweenLitLoop_no_end mult sw ew cwp hmem hend
      · rename_i hno
        exact (hno sw st ew et h1 h2).elim
  · intro addText anchorText rgx mult a0 atail hconv hfind
    constructor
    · unfold addAfterLines
      split
      · rename_i heq
        rw [hconv] at heq
        exact absurd heq (by simp)
      · rename_i a0' atail' heq
        rw [hconv] at heq
        cases heq
        rw [collectPoints_nil_of_findHit_none rm rgx mult _ (a0 :: atail) a0 cwp 0 hfind]
        rfl
    · unfold addBeforeLines
      split
      · rename_i heq
        rw [hconv] at heq
        exact absurd heq (by simp)
      · rename_i a0' atail' heq
        rw [hconv] at heq
        cases heq
        rw [collectPoints_nil_of_findHit_none rm rgx mult _ (a0 :: atail) a0 cwp 0 hfind]
        rfl
  · intro oldText newText rgx mult replacePath old new ot nt h1 h2 hcol
    unfold replaceLine
    split
    · rename_i old' _ new' _ heq1 heq2
      rw [h1] at heq1
      rw [h2] at heq2
      cases heq1
      cases heq2
      rw [if_neg (by simp), hcol]
      rfl
    · rename_i hno
      exact (hno old ot new nt h1 h2).elim
  · intro oldText newText rgx mult replacePath old new ot nt h1 h2 hnm
    unfold replaceLine
    split
    · rename_i old' _ new' _ heq1 heq2
      rw [h1] at heq1
      rw [h2] at heq2
      cases heq1
      cases heq2
      rw [if_pos rfl, replaceBackref_no_match rm rsub mult old new cwp hnm]
    · rename_i hno
      exact (hno old ot new nt h1 h2).elim
  · intro oldText newText rgx mult fuel d0 dtail hconv hfind hfuel
    unfold replaceSerialLines
    split
    · rename_i heq
      rw [hconv] at heq
      exact absurd heq (by simp)
    · rename_i d0' dtail' heq
      rw [hconv] at heq
      cases heq
      cases fuel with
      | zero => exact absurd hfuel (by omega)
      | succ fuel =>
        simp only [replaceSerialLoop]
        rw [hfind]
  · intro startText endText newText mult fuel sw ew st et h1 h2 hfuel
    refine ⟨?_, ?_, ?_⟩
    · intro hfind
      unfold replaceBetweenLines
      split
      · rename_i sw' _ ew' _ heq1 heq2
        rw [h1] at heq1
        rw [h2] at heq2
        cases heq1
        cases heq2
        rw [if_pos rfl]
        cases fuel with
        | zero => exact absurd hfuel (by omega)
        | succ fuel =>
          simp only [replaceBetweenRegexLoop]
          rw [hfind]
          simp
      · rename_i hno
        exact (hno sw st ew et h1 h2).elim
    · intro hmem
      unfold replaceBetweenLines
      split
      · rename_i sw' _ ew' _ heq1 heq2
        rw [h1] at heq1
        rw [h2] at heq2
        cases heq1
        cases heq2
        rw [if_neg (by simp)]
        cases fuel with
        | zero => exact absurd hfuel (by omega)
        | succ fuel =>
          simp only [replaceBetweenLitLoop]
          rw [if_neg hmem]
          simp
      · rename_i hno
        exact (hno sw st ew et h1 h2).elim
    · intro hmem hend
      unfold replaceBetweenLines
      split
      · rename_i sw' _ ew' _ heq1 heq2
        rw [h1] at heq1
        rw [h2] at heq2
        cases heq1
        cases heq2
        rw [if_neg (by simp)]
        cases fuel with
        | zero => exact absurd hfuel (by omega)
        | succ fuel =>
          simp only [replaceBetweenLitLoop]
          rw [if_pos hmem, if_neg hend]
      · rename_i hno
        exact (hno sw st ew et h1 h2).elim

/-- Counterexample to C3 as stated: literal-mode delete_between_lines with
start record " a" present in the one-record sequence but no end record " b"
after it does not return normally — list.index raises (modelled as none) —
instead of being a silent no-op. -/
theorem C3_counterexample :
    deleteBetweenLines prefMatch 1 [] ',' ['a'] ['b'] false false
      [([], [' ', 'a'])] = none := by
  show deleteBetweenLitLoop false ([], [' ', 'a']) ([], [' ', 'b'])
      [([], [' ', 'a'])] = none
  exact deleteBetweenLitLoop_no_end false ([], [' ', 'a']) ([], [' ', 'b'])
    [([], [' ', 'a'])] (by decide) (by decide)

/-- Witness applying C3 at a concrete one-record sequence with
non-matching patterns: every operation is a silent no-op (the literal
between-delete with a present start and missing end is exercised by the
counterexample instead). -/
theorem C3_no_match_no_op_witness :
    deleteSerialLines prefMatch 1 [] ',' ['q'] true false [([], [' ', 'x'])] =
      some [([], [' ', 'x'])] ∧
    deleteBetweenLines prefMatch 1 [] ',' ['q'] ['q'] true false [([], [' ', 'x'])] =
      some [([], [' ', 'x'])] ∧
    deleteBetweenLines prefMatch 1 [] ',' ['q'] ['q'] false false [([], [' ', 'x'])] =
      some [([], [' ', 'x'])] ∧
    addAfterLines prefMatch 1 [] ',' ['n'] ['q'] false false [([], [' ', 'x'])] =
      some [([], [' ', 'x'])] ∧
    addBeforeLines prefMatch 1 [] ',' ['n'] ['q'] false false [([], [' ', 'x'])] =
      some [([], [' ', 'x'])] ∧
    replaceLine prefMatch (fun _ _ s => s) 1 [] ',' ['q'] ['r'] false false false false
      [([], [' ', 'x'])] = some [([], [' ', 'x'])] ∧
    replaceLine prefMatch (fun _ _ s => s) 1 [] ',' ['q'] ['r'] false false true false
      [([], [' ', 'x'])] = some [([], [' ', 'x'])] ∧
    replaceSerialLines prefMatch 1 [] ',' ['q'] ['r'] false false 1 [([], [' ', 'x'])] =
      some [([], [' ', 'x'])] ∧
    replaceBetweenLines prefMatch 1 [] ',' ['q'] ['q'] ['r'] false false 1
      [([], [' ', 'x'])] = some [([], [' ', 'x'])] := by
  have h := C3_no_match_no_op prefMatch (fun _ _ s => s) 1 [] ',' [([], [' ', 'x'])]
  refine ⟨h.1 ['q'] true false ([], [' ', 'q']) [] (by decide) (by decide),
    h.2.1 ['q'] ['q'] false ([], [' ', 'q']) ([], [' ', 'q']) [] [] (by decide) (by decide)
      (by decide),
    (h.2.2.1 ['q'] ['q'] false ([], [' ', 'q']) ([], [' ', 'q']) [] [] (by decide)
      (by decide)).1 (by decide),
    (h.2.2.2.1 ['n'] ['q'] false false ([], [' ', 'q']) [] (by decide) (by decide)).1,
    (h.2.2.2.1 ['n'] ['q'] false false ([], [' ', 'q']) [] (by decide) (by decide)).2,
    h.2.2.2.2.1 ['q'] ['r'] false false false ([], [' ', 'q']) ([], [' ', 'r']) [] []
      (by decide) (by decide) (by decide),
    h.2.2.2.2.2.1 ['q'] ['r'] false false false ([], [' ', 'q']) ([], [' ', 'r']) [] []
      (by decide) (by decide) (by decide),
    ?_, ?_⟩
  · have := h.2.2.2.2.2.2.1 ['q'] ['r'] false false 1 ([], [' ', 'q']) [] (by decide)
      (by decide) (by decide)
    simpa using this
  · exact (h.2.2.2.2.2.2.2 ['q'] ['q'] ['r'] false 1 ([], [' ', 'q']) ([], [' ', 'q'])
      [] [] (by decide) (by decide) (by decide)).2.1 (by decide)

/-! ### Purity of the query operations (C10) -/

/-- C10: cwp_search, cwp_search_capture and cwp_serial_check assign nothing
to the owned record sequence: the state they return is element-wise the
state they received, for every input. -/
theorem C10_queries_pure (rm : Line → Line → Bool)
    (rgroups : Line → Line → Option (List Line)) (regex : Bool)
    (path value patText : Line) (sep : Char) (cwp : List PathRec) :
    (cwpSearchM rm regex path value cwp).2 = cwp ∧
    (cwpSearchCaptureM rgroups path value cwp).2 = cwp ∧
    (cwpSerialCheckM rm sep patText cwp).2 = cwp :=
  ⟨rfl, rfl, rfl⟩

end Edit4Config
